import Mathlib

/-! DerkGPS serial receive buffer (`serials.c`).

A shallow embedding of the interrupt-driven UART receive buffer of the DerkGPS
firmware and the properties of its byte and line oriented read operations.

Conventions of the embedding.

* `unsigned char`, `uint8_t` and `char` values are represented by their 8-bit
  pattern, a natural number below 256.  Assignments to a `uint8_t` object are
  reduced modulo 256, `unsigned short` arithmetic modulo 65536.
* The arrays `buffer[]`, `size[]`, `limit[]`, `head[]`, `tail[]`, `lines[]`
  and `bytes[]` of `serials.c` are only ever indexed with the `port` argument
  of the function that runs, so the state of one port is the record `Port`
  made of the `port`-th entry of each array.
* `LINE_TERMINATOR`, `UARTn_BUFFER_SIZE` and `UARTn_BUFFER_THLIMIT` come from
  `serials.h`; they are parameters.  `LINE_TERMINATOR` is a character constant
  of the 7-bit range, so that comparing a `char` or an `unsigned char` with it
  is the comparison of the 8-bit patterns.
-/

namespace Serials

/-- Conversion of an `int` to `char`: the low eight bits. -/
def charOfInt (z : Int) : Nat := (z % 256).toNat

/-- Conversion of an `unsigned short` to `int`, which has 16 bits on the AVR. -/
def intOfUShort (i : Nat) : Int := if i < 32768 then (i : Int) else (i : Int) - 65536

/-- State of one serial port: the `port`-th entries of the static arrays of
`serials.c`, and the number of `scheduleTopHalve(port)` requests issued.  The
array `uart_intr[]` is cleared by `initSerials` and used by no other function
of `serials.c`; it is left out. -/
structure Port where
  buffer : List Nat
  size : Nat
  limit : Nat
  head : Nat
  tail : Nat
  lines : Nat
  bytes : Nat
  topHalves : Nat
deriving DecidableEq

/-- Modelled from the spec: `scheduleTopHalve` is declared outside `serials.c`;
it is the fire-and-forget request for deferred processing of a port, recorded
here by counting the requests. -/
def scheduleTopHalve (p : Port) : Port :=
  { p with topHalves := p.topHalves + 1 }

/-- State of a port after `initSerials`: buffer zeroed by `memset`, cursors and
counters cleared.  The arguments are `UARTn_BUFFER_SIZE` and
`UARTn_BUFFER_THLIMIT`. -/
def initSerials (size limit : Nat) : Port :=
  { buffer := List.replicate size 0, size := size, limit := limit,
    head := 0, tail := 0, lines := 0, bytes := 0, topHalves := 0 }

/-- Function `available`: `(size+head-tail) % size`, computed in `int` with the
truncating remainder of C and returned as `uint8_t`. -/
def available (p : Port) : Nat :=
  (Int.tmod ((p.size : Int) + (p.head : Int) - (p.tail : Int)) (p.size : Int) % 256).toNat

/-- Function `look`. -/
def look (p : Port) : Nat :=
  if p.head = p.tail then charOfInt (-1) else p.buffer.getD p.tail 0

/-- Function `read`: the new state and the returned `char`. -/
def read (LINE_TERMINATOR : Nat) (p : Port) : Port × Nat :=
  if p.head = p.tail then (p, charOfInt (-1))
  else
    let byte := p.buffer.getD p.tail 0
    let p1 := { p with tail := (p.tail + 1) % p.size % 256 }
    let p2 := if byte = LINE_TERMINATOR then { p1 with lines := (p1.lines + 255) % 256 } else p1
    ({ p2 with bytes := (p2.bytes + 255) % 256 }, byte)

/-- The `do ... while` loop of `readLine`, entered with the decremented `len`,
the loop counter `i` and the destination `buff`.  The counter is only
incremented while it is below `len`, which is at most 65535, so `++i` does not
wrap. -/
def readLineLoop (LINE_TERMINATOR len : Nat) (p : Port) (i : Nat) (buff : Nat → Nat) :
    Port × Nat × (Nat → Nat) :=
  let buff1 := Function.update buff i (p.buffer.getD p.tail 0)
  let p1 := { p with tail := (p.tail + 1) % p.size % 256 }
  if buff1 i ≠ LINE_TERMINATOR then
    if i + 1 < len then readLineLoop LINE_TERMINATOR len p1 (i + 1) buff1
    else (p1, i + 1, buff1)
  else (p1, i, buff1)
termination_by len - i

/-- Function `readLine`: the new state, the destination and the returned `int`.
The destination `buff` is the memory addressed from the pointer argument. -/
def readLine (LINE_TERMINATOR : Nat) (p : Port) (buff : Nat → Nat) (len : Nat) :
    Port × (Nat → Nat) × Int :=
  if p.lines = 0 then (p, Function.update buff 0 0, -1)
  else
    let len1 := (len + 65535) % 65536
    let r := readLineLoop LINE_TERMINATOR len1 p 0 buff
    if r.2.1 < len1 then
      ({ r.1 with lines := (r.1.lines + 255) % 256 },
        Function.update r.2.2 (r.2.1 + 1) 0, intOfUShort (r.2.1 + 1))
    else (r.1, Function.update r.2.2 r.2.1 0, intOfUShort r.2.1)

/-- Function `flush`. -/
def flush (p : Port) : Port :=
  { p with head := p.tail, lines := 0 }

/-- Function `rxByte`, the receive interrupt bottom halve. -/
def rxByte (LINE_TERMINATOR c : Nat) (p : Port) : Port :=
  let i := (p.head + 1) % p.size % 256
  if i ≠ p.tail then
    let p1 := { p with buffer := p.buffer.set p.head c, head := i, bytes := (p.bytes + 1) % 256 }
    let p2 := if c = LINE_TERMINATOR then
        scheduleTopHalve { p1 with lines := (p1.lines + 1) % 256 } else p1
    if p2.bytes > p2.limit then scheduleTopHalve p2 else p2
  else scheduleTopHalve p

/-- Typing and cursor invariant of a port state: the capacity is a nonzero
`uint8_t`, the buffer has `size` slots and both cursors index a slot. -/
def Port.Valid (p : Port) : Prop :=
  0 < p.size ∧ p.size ≤ 255 ∧ p.buffer.length = p.size ∧ p.head < p.size ∧ p.tail < p.size

instance (p : Port) : Decidable p.Valid := by unfold Port.Valid; infer_instance

/-- The unread bytes of a port, from the read cursor towards the write cursor. -/
def unread (p : Port) : List Nat :=
  (List.range (available p)).map (fun j => p.buffer.getD ((p.tail + j) % p.size) 0)

/-- A call made on a port by one of its two users: the receive interrupt
handing a byte to `rxByte`, or the mainline consumer calling `read`. -/
inductive Call where
  | ingest (c : Nat)
  | take
deriving DecidableEq

/-- Runs an interleaving of `rxByte` and `read` calls; returns the final state
and the values returned by the successful `read` calls (those made while
`head != tail`), in call order. -/
def serve (LINE_TERMINATOR : Nat) : Port → List Call → Port × List Nat
  | p, [] => (p, [])
  | p, Call.ingest c :: cs => serve LINE_TERMINATOR (rxByte LINE_TERMINATOR c p) cs
  | p, Call.take :: cs =>
    let r := serve LINE_TERMINATOR (read LINE_TERMINATOR p).1 cs
    (r.1, if p.head ≠ p.tail then (read LINE_TERMINATOR p).2 :: r.2 else r.2)

/-- The bytes handed to `rxByte` by an interleaving, in call order. -/
def ingested : List Call → List Nat
  | [] => []
  | Call.ingest c :: cs => c :: ingested cs
  | Call.take :: cs => ingested cs

/-- Specification side of the FIFO contract: starting with `n` unread bytes,
the number of unread bytes (ingested minus read, a read of an empty channel
reading nothing) never exceeds `cap - 1` along the interleaving. -/
def NeverExceeds (cap : Nat) : Nat → List Call → Prop
  | _, [] => True
  | n, Call.ingest _ :: cs => n + 1 ≤ cap - 1 ∧ NeverExceeds cap (n + 1) cs
  | n, Call.take :: cs => NeverExceeds cap (n - 1) cs

/-- The byte `j` slots after the read cursor, in circular order. -/
def byteAt (p : Port) (j : Nat) : Nat :=
  p.buffer.getD ((p.tail + j) % p.size) 0

/-- Hands the bytes of a list to `rxByte`, one call per byte, first byte first. -/
def ingestAll (LINE_TERMINATOR : Nat) (p : Port) : List Nat → Port
  | [] => p
  | c :: cs => ingestAll LINE_TERMINATOR (rxByte LINE_TERMINATOR c p) cs

/-- An operation on a port: `rxByte(port, c)`, `read(port)`,
`readLine(port, buff, len)` or `flush(port)`. -/
inductive Op where
  | rx (c : Nat)
  | rd
  | rdLine (len : Nat)
  | fl
deriving DecidableEq

/-- Effect of one operation on the state of the port. -/
def step (LINE_TERMINATOR : Nat) (p : Port) : Op → Port
  | Op.rx c => rxByte LINE_TERMINATOR c p
  | Op.rd => (read LINE_TERMINATOR p).1
  | Op.rdLine len => (readLine LINE_TERMINATOR p (fun _ => 0) len).1
  | Op.fl => flush p

/-- Effect of a sequence of operations, first operation first. -/
def run (LINE_TERMINATOR : Nat) (p : Port) (ops : List Op) : Port :=
  ops.foldl (step LINE_TERMINATOR) p

/-- Cursor and line-count invariant of a port: the state is `Valid`, and
`lines` is the number of line terminators among the unread bytes. -/
def LinesInv (LINE_TERMINATOR : Nat) (p : Port) : Prop :=
  p.Valid ∧ p.lines = (unread p).count LINE_TERMINATOR

/-- Transmit side of the two UARTs: the status registers `UCSR0A`, `UCSR1A`
and, for each data register `UDR0`, `UDR1`, the bytes written to it, oldest
first. -/
structure Tx where
  UCSR0A : Nat
  UCSR1A : Nat
  UDR0 : List Nat
  UDR1 : List Nat
deriving DecidableEq

/-- Modelled from the spec: the enumerator `UART0` of `uart_port_t` is declared
in `serials.h`, which is not part of the sources; the ports are numbered from
0. -/
def UART0 : Nat := 0

/-- Modelled from the spec: the bit numbers `UDRE0` and `UDRE1` of the
"ready" flag polled by `print` come from `avr/io.h`; both are bit 5 of the
status register of their UART. -/
def UDRE : Nat := 5

/-- Function `print`.  The busy-wait loop reads a register that the program
does not write: with the flag set it falls through and the character is
written to the data register; with the flag clear it does not return
(`none`). -/
def print (port c : Nat) (t : Tx) : Option Tx :=
  if port = UART0 then
    if t.UCSR0A &&& ((1 <<< UDRE) % 256) ≠ 0 then some { t with UDR0 := t.UDR0 ++ [c] }
    else none
  else
    if t.UCSR1A &&& ((1 <<< UDRE) % 256) ≠ 0 then some { t with UDR1 := t.UDR1 ++ [c] }
    else none

/-- Function `printStr`.  The argument `str` is the memory from the pointer
on; the end of the list reads as the NUL. -/
def printStr (port : Nat) : List Nat → Tx → Option Tx
  | [], t => some t
  | c :: str, t => if c ≠ 0 then (print port c t).bind (printStr port str) else some t

/-- Function `printLine`: the loop of `printStr`, then `'\n'` and `'\r'`. -/
def printLine (port : Nat) (str : List Nat) (t : Tx) : Option Tx :=
  ((printStr port str t).bind (print port 10)).bind (print port 13)

/-- The transmit state after the bytes `bs` were written, in order, to the
data register of `port`. -/
def Tx.written (port : Nat) (bs : List Nat) (t : Tx) : Tx :=
  if port = UART0 then { t with UDR0 := t.UDR0 ++ bs } else { t with UDR1 := t.UDR1 ++ bs }

/-- The transmitter-ready flag of `port` is set. -/
def Tx.ready (port : Nat) (t : Tx) : Prop :=
  if port = UART0 then t.UCSR0A &&& 32 ≠ 0 else t.UCSR1A &&& 32 ≠ 0

instance (port : Nat) (t : Tx) : Decidable (t.ready port) := by
  unfold Tx.ready; infer_instance

end Serials

/-! External interrupt registry (`interrupts.c`).

Function pointers are represented by their address, a natural number, 0 being
the null pointer of an empty slot.  The registers `EICRA`, `EICRB` and `EIMSK`
are 8-bit; the operands of `&`, `|`, `~` and `<<` are promoted to the 16-bit
`int` of the AVR, and the assignment to the register keeps the low 8 bits.
`EXTERNAL_NUM_INTERRUPTS` comes from `at90can.h`; it is a parameter. -/

namespace Interrupts

/-- Modelled from the spec: the bit numbers `ISCn0` and `ISCn1` of `avr/io.h`
are not part of the sources.  Each line has its own 2-bit mode field in its
control register, lines 0 to 3 in `EICRA` and lines 4 to 7 in `EICRB`;
`ISC n 0` stands for `ISCn0` and `ISC n 1` for `ISCn1`. -/
def ISC (n b : Nat) : Nat := 2 * (n % 4) + b

/-- Modelled from the spec: the bit number `INTn` in `EIMSK` of the enable bit
of line `n`, from `avr/io.h`. -/
def INT (n : Nat) : Nat := n

/-- Modelled from the spec: the index `EXTERNAL_INT_n` of line `n` in the
callback table, from `at90can.h`. -/
def EXTERNAL_INT (n : Nat) : Nat := n

/-- Bitwise complement `~x` of a non-negative 16-bit `int`, as a bit pattern. -/
def compl16 (x : Nat) : Nat := 65535 ^^^ x

/-- The callback table `intFunc` and the three hardware registers. -/
structure Registry where
  intFunc : List Nat
  EICRA : Nat
  EICRB : Nat
  EIMSK : Nat
deriving DecidableEq

/-- Function `attachInterrupt`.  The argument `mode` is a non-negative `int`
(shifting a negative one is undefined). -/
def attachInterrupt (EXTERNAL_NUM_INTERRUPTS interruptNum userFunc mode : Nat)
    (s : Registry) : Registry :=
  if interruptNum < EXTERNAL_NUM_INTERRUPTS then
    let s1 := { s with intFunc := s.intFunc.set interruptNum userFunc }
    match interruptNum with
    | 0 => { s1 with
        EICRA := ((s1.EICRA &&& compl16 ((1 <<< ISC 0 0) ||| (1 <<< ISC 0 1)))
          ||| (mode <<< ISC 0 0)) % 256,
        EIMSK := (s1.EIMSK ||| (1 <<< INT 0)) % 256 }
    | 1 => { s1 with
        EICRA := ((s1.EICRA &&& compl16 ((1 <<< ISC 1 0) ||| (1 <<< ISC 1 1)))
          ||| (mode <<< ISC 1 0)) % 256,
        EIMSK := (s1.EIMSK ||| (1 <<< INT 1)) % 256 }
    | 2 => { s1 with
        EICRA := ((s1.EICRA &&& compl16 ((1 <<< ISC 2 0) ||| (1 <<< ISC 2 1)))
          ||| (mode <<< ISC 2 0)) % 256,
        EIMSK := (s1.EIMSK ||| (1 <<< INT 2)) % 256 }
    | 3 => { s1 with
        EICRA := ((s1.EICRA &&& compl16 ((1 <<< ISC 3 0) ||| (1 <<< ISC 3 1)))
          ||| (mode <<< ISC 3 0)) % 256,
        EIMSK := (s1.EIMSK ||| (1 <<< INT 3)) % 256 }
    | 4 => { s1 with
        EICRB := ((s1.EICRB &&& compl16 ((1 <<< ISC 4 0) ||| (1 <<< ISC 4 1)))
          ||| (mode <<< ISC 4 0)) % 256,
        EIMSK := (s1.EIMSK ||| (1 <<< INT 4)) % 256 }
    | 5 => { s1 with
        EICRB := ((s1.EICRB &&& compl16 ((1 <<< ISC 5 0) ||| (1 <<< ISC 5 1)))
          ||| (mode <<< ISC 5 0)) % 256,
        EIMSK := (s1.EIMSK ||| (1 <<< INT 5)) % 256 }
    | 6 => { s1 with
        EICRB := ((s1.EICRB &&& compl16 ((1 <<< ISC 6 0) ||| (1 <<< ISC 6 1)))
          ||| (mode <<< ISC 6 0)) % 256,
        EIMSK := (s1.EIMSK ||| (1 <<< INT 6)) % 256 }
    | 7 => { s1 with
        EICRB := ((s1.EICRB &&& compl16 ((1 <<< ISC 7 0) ||| (1 <<< ISC 7 1)))
          ||| (mode <<< ISC 7 0)) % 256,
        EIMSK := (s1.EIMSK ||| (1 <<< INT 7)) % 256 }
    | _ => s1
  else s

/-- Function `detachInterrupt`. -/
def detachInterrupt (EXTERNAL_NUM_INTERRUPTS interruptNum : Nat) (s : Registry) : Registry :=
  if interruptNum < EXTERNAL_NUM_INTERRUPTS then
    let s1 : Registry := match interruptNum with
      | 0 => { s with EIMSK := (s.EIMSK &&& compl16 (1 <<< INT 0)) % 256 }
      | 1 => { s with EIMSK := (s.EIMSK &&& compl16 (1 <<< INT 1)) % 256 }
      | 2 => { s with EIMSK := (s.EIMSK &&& compl16 (1 <<< INT 2)) % 256 }
      | 3 => { s with EIMSK := (s.EIMSK &&& compl16 (1 <<< INT 3)) % 256 }
      | 4 => { s with EIMSK := (s.EIMSK &&& compl16 (1 <<< INT 4)) % 256 }
      | 5 => { s with EIMSK := (s.EIMSK &&& compl16 (1 <<< INT 5)) % 256 }
      | 6 => { s with EIMSK := (s.EIMSK &&& compl16 (1 <<< INT 6)) % 256 }
      | 7 => { s with EIMSK := (s.EIMSK &&& compl16 (1 <<< INT 7)) % 256 }
      | _ => s
    { s1 with intFunc := s1.intFunc.set interruptNum 0 }
  else s

/-- The handlers `SIGNAL(SIG_INTERRUPTn)`, `n` from 0 to 7, which differ by the
index `EXTERNAL_INT_n` only: the list of the callbacks the handler of line `n`
invokes, in call order.  What a callback does is code of the user. -/
def SIG_INTERRUPT (n : Nat) (s : Registry) : List Nat :=
  if s.intFunc.getD (EXTERNAL_INT n) 0 ≠ 0 then [s.intFunc.getD (EXTERNAL_INT n) 0] else []

end Interrupts

namespace Serials

/-! ## Arithmetic of the cursors -/

theorem mod_wrap (a n : Nat) (h : a < 2 * n) : a % n = if a < n then a else a - n := by
  split
  · exact Nat.mod_eq_of_lt (by assumption)
  · rw [Nat.mod_eq_sub_mod (by omega)]
    exact Nat.mod_eq_of_lt (by omega)

theorem available_eq (p : Port) (h0 : 0 < p.size) (hs : p.size ≤ 256)
    (ht : p.tail ≤ p.size + p.head) :
    available p = (p.size + p.head - p.tail) % p.size := by
  unfold available
  have e : (p.size : Int) + (p.head : Int) - (p.tail : Int)
      = ((p.size + p.head - p.tail : Nat) : Int) := by omega
  rw [e, Int.tmod_eq_emod (by omega) (by omega)]
  have hlt : (p.size + p.head - p.tail) % p.size < 256 :=
    lt_of_lt_of_le (Nat.mod_lt _ h0) hs
  omega

theorem available_valid (p : Port) (h : p.Valid) :
    available p = if p.tail ≤ p.head then p.head - p.tail else p.size + p.head - p.tail := by
  obtain ⟨h0, hs, _, hh, ht⟩ := h
  rw [available_eq p h0 (by omega) (by omega), mod_wrap _ p.size (by omega)]
  split_ifs <;> omega

theorem next_valid (p : Port) (h : p.Valid) (x : Nat) (hx : x < p.size) :
    (x + 1) % p.size % 256 = if x + 1 < p.size then x + 1 else 0 := by
  obtain ⟨h0, hs, _, hh, ht⟩ := h
  rw [mod_wrap (x + 1) p.size (by omega)]
  split_ifs <;> omega

/-! ## Frame lemmas for `rxByte` -/

theorem rxByte_store (LT c : Nat) (p : Port) (h : (p.head + 1) % p.size % 256 ≠ p.tail) :
    (rxByte LT c p).buffer = p.buffer.set p.head c ∧
    (rxByte LT c p).head = (p.head + 1) % p.size % 256 ∧
    (rxByte LT c p).tail = p.tail ∧ (rxByte LT c p).size = p.size ∧
    (rxByte LT c p).limit = p.limit ∧ (rxByte LT c p).bytes = (p.bytes + 1) % 256 := by
  unfold rxByte
  simp only [h, ne_eq, not_false_eq_true, if_true, scheduleTopHalve]
  split_ifs <;> simp

theorem rxByte_valid (LT c : Nat) (p : Port) (h : p.Valid)
    (hr : (p.head + 1) % p.size % 256 ≠ p.tail) : (rxByte LT c p).Valid := by
  obtain ⟨e1, e2, e3, e4, e5⟩ := rxByte_store LT c p hr
  have hn := next_valid p h p.head h.2.2.2.1
  obtain ⟨h0, hs, hl, hh, ht⟩ := h
  refine ⟨by omega, by omega, ?_, ?_, by omega⟩
  · rw [e1, e4, List.length_set]; exact hl
  · rw [e2, e4, hn]; split_ifs <;> omega

theorem rxByte_unread (LT c : Nat) (p : Port) (h : p.Valid)
    (hr : (p.head + 1) % p.size % 256 ≠ p.tail) :
    unread (rxByte LT c p) = unread p ++ [c] ∧
    available (rxByte LT c p) = available p + 1 := by
  obtain ⟨e1, e2, e3, e4, e5⟩ := rxByte_store LT c p hr
  have hv := rxByte_valid LT c p h hr
  have hn := next_valid p h p.head h.2.2.2.1
  have ha := available_valid p h
  have ha2 := available_valid _ hv
  rw [e2, e3, e4] at ha2
  rw [hn] at ha2 hr
  obtain ⟨h0, hs, hl, hh, ht⟩ := h
  have hav : available (rxByte LT c p) = available p + 1 := by
    rw [ha, ha2]; split_ifs at hr ⊢ <;> omega
  refine ⟨?_, hav⟩
  unfold unread
  rw [hav, List.range_succ, List.map_append, e1, e3, e4]
  congr 1
  · apply List.map_congr_left
    intro j hj
    have hj2 : j < available p := List.mem_range.mp hj
    rw [ha] at hj2
    have hjs : j < p.size := by split_ifs at hj2 <;> omega
    have hne : p.head ≠ (p.tail + j) % p.size := by
      rw [mod_wrap _ p.size (by omega)]
      split_ifs at hj2 ⊢ <;> omega
    simp only [List.getD_eq_getElem?_getD, List.getElem?_set_ne hne]
  · have he : (p.tail + available p) % p.size = p.head := by
      rw [mod_wrap _ p.size (by rw [ha]; split_ifs <;> omega), ha]
      split_ifs <;> omega
    simp only [List.map_cons, List.map_nil, he, List.getD_eq_getElem?_getD]
    rw [List.getElem?_set_self (by omega)]
    rfl

/-! ## Frame lemmas for `read` -/

theorem read_empty (LT : Nat) (p : Port) (h : p.head = p.tail) :
    read LT p = (p, charOfInt (-1)) := by
  unfold read; simp [h]

theorem read_fields (LT : Nat) (p : Port) (h : p.head ≠ p.tail) :
    (read LT p).2 = p.buffer.getD p.tail 0 ∧
    (read LT p).1.buffer = p.buffer ∧ (read LT p).1.head = p.head ∧
    (read LT p).1.tail = (p.tail + 1) % p.size % 256 ∧ (read LT p).1.size = p.size ∧
    (read LT p).1.limit = p.limit := by
  unfold read
  simp only [h, if_false]
  split_ifs <;> simp

theorem read_valid (LT : Nat) (p : Port) (h : p.Valid) : (read LT p).1.Valid := by
  by_cases hne : p.head = p.tail
  · rw [read_empty LT p hne]; exact h
  · obtain ⟨_, e1, e2, e3, e4, _⟩ := read_fields LT p hne
    have hn := next_valid p h p.tail h.2.2.2.2
    obtain ⟨h0, hs, hl, hh, ht⟩ := h
    refine ⟨by omega, by omega, by rw [e1, e4]; exact hl, by omega, ?_⟩
    rw [e3, e4, hn]; split_ifs <;> omega

theorem read_unread (LT : Nat) (p : Port) (h : p.Valid) (hne : p.head ≠ p.tail) :
    unread p = (read LT p).2 :: unread (read LT p).1 ∧
    available p = available (read LT p).1 + 1 := by
  obtain ⟨e0, e1, e2, e3, e4, _⟩ := read_fields LT p hne
  have hv := read_valid LT p h
  have hn := next_valid p h p.tail h.2.2.2.2
  have ha := available_valid p h
  have ha2 := available_valid _ hv
  rw [e2, e3, e4, hn] at ha2
  obtain ⟨h0, hs, hl, hh, ht⟩ := h
  have hav : available p = available (read LT p).1 + 1 := by
    rw [ha, ha2]; split_ifs <;> omega
  refine ⟨?_, hav⟩
  unfold unread
  rw [hav, List.range_succ_eq_map, List.map_cons, List.map_map, e0, e1, e3, e4,
    Nat.add_zero, Nat.mod_eq_of_lt ht]
  congr 1
  apply List.map_congr_left
  intro j _
  simp only [Function.comp_apply, Nat.succ_eq_add_one]
  have e : (p.tail + 1) % p.size % 256 = (p.tail + 1) % p.size :=
    Nat.mod_eq_of_lt (lt_of_lt_of_le (Nat.mod_lt _ h0) (by omega))
  rw [e, Nat.mod_add_mod]
  congr 2
  omega

/-! ## FIFO order of `rxByte` and `read` -/

theorem full_of_next (p : Port) (h : p.Valid) (hf : (p.head + 1) % p.size % 256 = p.tail) :
    available p = p.size - 1 := by
  rw [next_valid p h p.head h.2.2.2.1] at hf
  rw [available_valid p h]
  obtain ⟨h0, hs, hl, hh, ht⟩ := h
  split_ifs at hf ⊢ <;> omega

theorem empty_of_eq (p : Port) (h : p.Valid) (he : p.head = p.tail) : available p = 0 := by
  rw [available_valid p h]
  split_ifs <;> omega

theorem serve_fifo (LT : Nat) (cs : List Call) :
    ∀ p : Port, p.Valid → NeverExceeds p.size (available p) cs →
      unread p ++ ingested cs = (serve LT p cs).2 ++ unread (serve LT p cs).1 ∧
      (serve LT p cs).1.Valid ∧ (serve LT p cs).1.size = p.size := by
  induction cs with
  | nil => intro p h _; simp [serve, ingested, h]
  | cons c cs ih =>
    intro p h hn
    cases c with
    | ingest c =>
      simp only [NeverExceeds] at hn
      have hr : (p.head + 1) % p.size % 256 ≠ p.tail := by
        intro hf
        have := full_of_next p h hf
        omega
      obtain ⟨hu, ha⟩ := rxByte_unread LT c p h hr
      have hv := rxByte_valid LT c p h hr
      have hsz := (rxByte_store LT c p hr).2.2.2.1
      have := ih (rxByte LT c p) hv (by rw [hsz, ha]; exact hn.2)
      simp only [serve, ingested]
      rw [hu, hsz] at this
      simpa using this
    | take =>
      simp only [NeverExceeds] at hn
      by_cases he : p.head = p.tail
      · have := ih p h (by rw [empty_of_eq p h he] at hn ⊢; exact hn)
        simp only [serve, ingested, read_empty LT p he, he, ne_eq, not_true_eq_false, if_false]
        exact this
      · obtain ⟨hu, ha⟩ := read_unread LT p h he
        have hv := read_valid LT p h
        have hsz := (read_fields LT p he).2.2.2.2.1
        have := ih (read LT p).1 hv (by rw [hsz]; rw [ha] at hn; exact hn)
        simp only [serve, ingested, he, ne_eq, not_false_eq_true, if_true]
        rw [hu]
        rw [hsz] at this
        simpa using this

theorem neverExceeds_take (cap : Nat) (cs : List Call) :
    ∀ (n k : Nat), NeverExceeds cap n cs → NeverExceeds cap n (cs.take k) := by
  induction cs with
  | nil => intro n k h; simpa using h
  | cons c cs ih =>
    intro n k h
    cases k with
    | zero => simp [NeverExceeds]
    | succ k =>
      cases c with
      | ingest c => exact ⟨h.1, ih _ k h.2⟩
      | take => exact ih _ k h

theorem initSerials_valid (cap limit : Nat) (h0 : 0 < cap) (h1 : cap ≤ 255) :
    (initSerials cap limit).Valid := by
  simp [Port.Valid, initSerials, h0, h1]

/-- C1: for every capacity from 2 to 255 and every interleaving of `rxByte`
and `read` calls from the state left by `initSerials` that never holds more
than `cap - 1` unread bytes, after every step (every initial segment
`cs.take k` of the interleaving) the values returned by the successful reads
are the first ingested bytes in ingestion order, and `available` is the number
of bytes ingested minus the number of bytes read. -/
theorem read_returns_ingested_in_order (LT cap limit : Nat) (h2 : 2 ≤ cap) (h255 : cap ≤ 255)
    (cs : List Call) (h : NeverExceeds cap 0 cs) (k : Nat) :
    (serve LT (initSerials cap limit) (cs.take k)).2
        = (ingested (cs.take k)).take (serve LT (initSerials cap limit) (cs.take k)).2.length ∧
    available (serve LT (initSerials cap limit) (cs.take k)).1
        = (ingested (cs.take k)).length
            - (serve LT (initSerials cap limit) (cs.take k)).2.length := by
  have hv := initSerials_valid cap limit (by omega) h255
  have ha0 : available (initSerials cap limit) = 0 := empty_of_eq _ hv rfl
  have hu0 : unread (initSerials cap limit) = [] := by unfold unread; rw [ha0]; rfl
  have hk := neverExceeds_take cap cs 0 k h
  obtain ⟨hf, _, _⟩ := serve_fifo LT (cs.take k) (initSerials cap limit) hv
    (by rw [ha0]; exact hk)
  rw [hu0, List.nil_append] at hf
  have hlen : (unread (serve LT (initSerials cap limit) (cs.take k)).1).length
      = available (serve LT (initSerials cap limit) (cs.take k)).1 := by
    simp [unread]
  constructor
  · rw [hf, List.take_left]
  · rw [hf, List.length_append, hlen]; omega

theorem read_returns_ingested_in_order_witness :
    NeverExceeds 4 0 [Call.ingest 65, Call.ingest 66, Call.take, Call.ingest 10,
        Call.ingest 67, Call.take, Call.take, Call.take, Call.take] ∧
    (serve 10 (initSerials 4 2) ([Call.ingest 65, Call.ingest 66, Call.take, Call.ingest 10,
        Call.ingest 67, Call.take, Call.take, Call.take, Call.take].take 9)).2
      = [65, 66, 10, 67] ∧
    available (serve 10 (initSerials 4 2) ([Call.ingest 65, Call.ingest 66, Call.take,
        Call.ingest 10, Call.ingest 67, Call.take, Call.take, Call.take, Call.take].take 9)).1
      = 0 := by
  have hN : NeverExceeds 4 0 [Call.ingest 65, Call.ingest 66, Call.take, Call.ingest 10,
        Call.ingest 67, Call.take, Call.take, Call.take, Call.take] := by
    simp [NeverExceeds]
  have h := read_returns_ingested_in_order 10 4 2 (by decide) (by decide) _ hN 9
  refine ⟨hN, ?_, ?_⟩
  · rw [h.1]; decide
  · rw [h.2]; decide

/-! ## The copy loop of `readLine` -/

theorem advance_valid (p : Port) (h : p.Valid) :
    Port.Valid { p with tail := (p.tail + 1) % p.size % 256 } := by
  have hn := next_valid p h p.tail h.2.2.2.2
  obtain ⟨h0, hs, hl, hh, ht⟩ := h
  refine ⟨h0, hs, hl, hh, ?_⟩
  show (p.tail + 1) % p.size % 256 < p.size
  rw [hn]; split_ifs <;> omega

theorem advance_byteAt (p : Port) (h : p.Valid) (j : Nat) :
    byteAt { p with tail := (p.tail + 1) % p.size % 256 } j = byteAt p (j + 1) := by
  obtain ⟨h0, hs, hl, hh, ht⟩ := h
  have e : (p.tail + 1) % p.size % 256 = (p.tail + 1) % p.size :=
    Nat.mod_eq_of_lt (lt_of_lt_of_le (Nat.mod_lt _ h0) (by omega))
  show p.buffer.getD (((p.tail + 1) % p.size % 256 + j) % p.size) 0
    = p.buffer.getD ((p.tail + (j + 1)) % p.size) 0
  rw [e, Nat.mod_add_mod]
  congr 2
  omega

theorem advance_tail (p : Port) (h : p.Valid) (n : Nat) :
    ((p.tail + 1) % p.size % 256 + n) % p.size = (p.tail + (n + 1)) % p.size := by
  obtain ⟨h0, hs, hl, hh, ht⟩ := h
  have e : (p.tail + 1) % p.size % 256 = (p.tail + 1) % p.size :=
    Nat.mod_eq_of_lt (lt_of_lt_of_le (Nat.mod_lt _ h0) (by omega))
  rw [e, Nat.mod_add_mod]
  congr 1
  omega

theorem byteAt_zero (p : Port) (h : p.Valid) : byteAt p 0 = p.buffer.getD p.tail 0 := by
  unfold byteAt
  rw [Nat.add_zero, Nat.mod_eq_of_lt h.2.2.2.2]

/-- The loop stops on the first terminator when it lies below the length limit. -/
theorem readLineLoop_found (LT len : Nat) :
    ∀ (k : Nat) (p : Port) (i : Nat) (buff : Nat → Nat), p.Valid →
      (∀ j, j < k → byteAt p j ≠ LT) → byteAt p k = LT → i + k < len →
      (readLineLoop LT len p i buff).1 = { p with tail := (p.tail + (k + 1)) % p.size } ∧
      (readLineLoop LT len p i buff).2.1 = i + k ∧
      (∀ j, j ≤ k → (readLineLoop LT len p i buff).2.2 (i + j) = byteAt p j) ∧
      (∀ x, x < i ∨ i + k < x → (readLineLoop LT len p i buff).2.2 x = buff x) := by
  intro k
  induction k with
  | zero =>
    intro p i buff hv _ ht _
    rw [byteAt_zero p hv] at ht
    have e : (p.tail + 1) % p.size % 256 = (p.tail + 1) % p.size :=
      Nat.mod_eq_of_lt (lt_of_lt_of_le (Nat.mod_lt _ hv.1) (by have := hv.2.1; omega))
    rw [readLineLoop]
    simp only [Function.update_same, ht, ne_eq, not_true_eq_false, if_false, Nat.add_zero,
      Nat.zero_add, e, true_and]
    constructor
    · intro j hj
      have : j = 0 := by omega
      subst this
      rw [byteAt_zero p hv, ht, Nat.add_zero, Function.update_same]
    · intro x hx
      exact Function.update_noteq (by omega) _ _
  | succ k ih =>
    intro p i buff hv hpre ht hlen
    have h0 : p.buffer.getD p.tail 0 ≠ LT := by
      rw [← byteAt_zero p hv]; exact hpre 0 (by omega)
    have hi : i + 1 < len := by omega
    have hrec := ih { p with tail := (p.tail + 1) % p.size % 256 } (i + 1)
      (Function.update buff i (p.buffer.getD p.tail 0)) (advance_valid p hv)
      (by intro j hj; rw [advance_byteAt p hv]; exact hpre (j + 1) (by omega))
      (by rw [advance_byteAt p hv]; exact ht) (by omega)
    rw [readLineLoop]
    simp only [Function.update_same, h0, ne_eq, not_false_eq_true, if_true, hi]
    obtain ⟨r1, r2, r3, r4⟩ := hrec
    refine ⟨?_, ?_, ?_, ?_⟩
    · rw [r1]
      simp only [advance_tail p hv]
    · rw [r2]; omega
    · intro j hj
      cases j with
      | zero =>
        have h4 := r4 i (Or.inl (by omega))
        rw [Function.update_same] at h4
        rw [byteAt_zero p hv]
        exact h4
      | succ j =>
        have := r3 j (by omega)
        rw [advance_byteAt p hv] at this
        have e2 : i + 1 + j = i + (j + 1) := by omega
        rw [e2] at this
        exact this
    · intro x hx
      rw [r4 x (by omega)]
      exact Function.update_noteq (by omega) _ _

/-- The loop stops on the length limit when no terminator lies below it. -/
theorem readLineLoop_limit (LT len : Nat) :
    ∀ (n : Nat) (p : Port) (i : Nat) (buff : Nat → Nat), p.Valid →
      (∀ j, j ≤ n → byteAt p j ≠ LT) → i + n + 1 = len →
      (readLineLoop LT len p i buff).1 = { p with tail := (p.tail + (n + 1)) % p.size } ∧
      (readLineLoop LT len p i buff).2.1 = len ∧
      (∀ j, j ≤ n → (readLineLoop LT len p i buff).2.2 (i + j) = byteAt p j) ∧
      (∀ x, x < i ∨ i + n < x → (readLineLoop LT len p i buff).2.2 x = buff x) := by
  intro n
  induction n with
  | zero =>
    intro p i buff hv hpre hlen
    have h0 : p.buffer.getD p.tail 0 ≠ LT := by
      rw [← byteAt_zero p hv]; exact hpre 0 (by omega)
    have hi : ¬ (i + 1 < len) := by omega
    have e : (p.tail + 1) % p.size % 256 = (p.tail + 1) % p.size :=
      Nat.mod_eq_of_lt (lt_of_lt_of_le (Nat.mod_lt _ hv.1) (by have := hv.2.1; omega))
    rw [readLineLoop]
    simp only [Function.update_same, h0, ne_eq, not_false_eq_true, if_true, hi, if_false,
      Nat.zero_add, e, true_and]
    refine ⟨by omega, ?_, ?_⟩
    · intro j hj
      have : j = 0 := by omega
      subst this
      rw [byteAt_zero p hv, Nat.add_zero, Function.update_same]
    · intro x hx
      exact Function.update_noteq (by omega) _ _
  | succ n ih =>
    intro p i buff hv hpre hlen
    have h0 : p.buffer.getD p.tail 0 ≠ LT := by
      rw [← byteAt_zero p hv]; exact hpre 0 (by omega)
    have hi : i + 1 < len := by omega
    have hrec := ih { p with tail := (p.tail + 1) % p.size % 256 } (i + 1)
      (Function.update buff i (p.buffer.getD p.tail 0)) (advance_valid p hv)
      (by intro j hj; rw [advance_byteAt p hv]; exact hpre (j + 1) (by omega))
      (by omega)
    rw [readLineLoop]
    simp only [Function.update_same, h0, ne_eq, not_false_eq_true, if_true, hi]
    obtain ⟨r1, r2, r3, r4⟩ := hrec
    refine ⟨?_, r2, ?_, ?_⟩
    · rw [r1]
      simp only [advance_tail p hv]
    · intro j hj
      cases j with
      | zero =>
        have h4 := r4 i (Or.inl (by omega))
        rw [Function.update_same] at h4
        rw [byteAt_zero p hv]
        exact h4
      | succ j =>
        have := r3 j (by omega)
        rw [advance_byteAt p hv] at this
        have e2 : i + 1 + j = i + (j + 1) := by omega
        rw [e2] at this
        exact this
    · intro x hx
      rw [r4 x (by omega)]
      exact Function.update_noteq (by omega) _ _

theorem available_lt_size (p : Port) (h : p.Valid) : available p < p.size := by
  rw [available_valid p h]
  obtain ⟨h0, hs, hl, hh, ht⟩ := h
  split_ifs <;> omega

/-! ## `readLine` -/

/-- C2: in a port state with `lines > 0` whose unread bytes have their first
line terminator at offset `k`, `readLine` with `len >= k+2` returns `k+1`,
leaves those `k+1` bytes (the terminator last) in the destination followed by a
0 at index `k+1`, touches no other destination slot, advances `tail` by `k+1`
modulo the capacity and decrements `lines` by exactly one. -/
theorem readLine_returns_first_line (LT : Nat) (p : Port) (buff : Nat → Nat) (len k : Nat)
    (hv : p.Valid) (hl : 0 < p.lines) (hl8 : p.lines < 256) (hk : k < available p)
    (hpre : ∀ j, j < k → byteAt p j ≠ LT) (ht : byteAt p k = LT)
    (hlen : k + 2 ≤ len) (hlen16 : len ≤ 65535) :
    (readLine LT p buff len).2.2 = ((k + 1 : Nat) : Int) ∧
    (∀ j, j ≤ k → (readLine LT p buff len).2.1 j = byteAt p j) ∧
    (readLine LT p buff len).2.1 k = LT ∧
    (readLine LT p buff len).2.1 (k + 1) = 0 ∧
    (∀ x, k + 1 < x → (readLine LT p buff len).2.1 x = buff x) ∧
    (readLine LT p buff len).1.tail = (p.tail + (k + 1)) % p.size ∧
    (readLine LT p buff len).1.lines = p.lines - 1 ∧
    (readLine LT p buff len).1.head = p.head ∧
    (readLine LT p buff len).1.buffer = p.buffer := by
  have hks : k < p.size := lt_trans hk (available_lt_size p hv)
  have hs := hv.2.1
  have hlen1 : (len + 65535) % 65536 = len - 1 := by omega
  obtain ⟨r1, r2, r3, r4⟩ := readLineLoop_found LT (len - 1) k p 0 buff hv hpre ht (by omega)
  have hne : p.lines ≠ 0 := by omega
  have hR : readLine LT p buff len =
      ({ (readLineLoop LT (len - 1) p 0 buff).1 with
          lines := ((readLineLoop LT (len - 1) p 0 buff).1.lines + 255) % 256 },
        Function.update (readLineLoop LT (len - 1) p 0 buff).2.2
          ((readLineLoop LT (len - 1) p 0 buff).2.1 + 1) 0,
        intOfUShort ((readLineLoop LT (len - 1) p 0 buff).2.1 + 1)) := by
    unfold readLine
    simp only [hne, if_false, hlen1]
    rw [if_pos (by rw [r2]; omega)]
  rw [hR]
  dsimp only
  rw [r1, r2, Nat.zero_add]
  refine ⟨?_, ?_, ?_, ?_, ?_, rfl, ?_, rfl, rfl⟩
  · unfold intOfUShort
    rw [if_pos (by omega)]
  · intro j hj
    rw [Function.update_noteq (by omega)]
    have := r3 j hj
    rwa [Nat.zero_add] at this
  · rw [Function.update_noteq (by omega)]
    have := r3 k (le_refl k)
    rw [Nat.zero_add] at this
    rw [this, ht]
  · exact Function.update_same _ _ _
  · intro x hx
    rw [Function.update_noteq (by omega)]
    exact r4 x (Or.inr (by omega))
  · show (p.lines + 255) % 256 = p.lines - 1
    omega

theorem readLine_returns_first_line_witness :
    (ingestAll 10 (initSerials 8 4) [65, 66, 10, 67, 68, 10]).lines = 2 ∧
    (readLine 10 (ingestAll 10 (initSerials 8 4) [65, 66, 10, 67, 68, 10])
        (fun _ => 7) 16).2.2 = 3 ∧
    (List.range 5).map (readLine 10 (ingestAll 10 (initSerials 8 4) [65, 66, 10, 67, 68, 10])
        (fun _ => 7) 16).2.1 = [65, 66, 10, 0, 7] ∧
    (readLine 10 (ingestAll 10 (initSerials 8 4) [65, 66, 10, 67, 68, 10])
        (fun _ => 7) 16).1.lines = 1 ∧
    (readLine 10 (readLine 10 (ingestAll 10 (initSerials 8 4) [65, 66, 10, 67, 68, 10])
        (fun _ => 7) 16).1 (fun _ => 7) 16).2.2 = 3 ∧
    (List.range 5).map (readLine 10 (readLine 10 (ingestAll 10 (initSerials 8 4)
        [65, 66, 10, 67, 68, 10]) (fun _ => 7) 16).1 (fun _ => 7) 16).2.1 = [67, 68, 10, 0, 7] ∧
    (readLine 10 (readLine 10 (ingestAll 10 (initSerials 8 4) [65, 66, 10, 67, 68, 10])
        (fun _ => 7) 16).1 (fun _ => 7) 16).1.lines = 0 := by
  have h := readLine_returns_first_line 10
    (ingestAll 10 (initSerials 8 4) [65, 66, 10, 67, 68, 10]) (fun _ => 7) 16 2
    (by decide) (by decide) (by decide) (by decide) (by decide) (by decide) (by decide)
    (by decide)
  obtain ⟨h1, h2, h3, h4, h5, h6, h7, h8, h9⟩ := h
  refine ⟨by decide, h1, ?_, h7, ?_, ?_, ?_⟩
  · simp only [List.range, List.range.loop, List.map]
    rw [h2 0 (by decide), h2 1 (by decide), h2 2 (by decide), h4, h5 4 (by decide)]
    decide
  · simp [readLine, readLineLoop, ingestAll, rxByte, initSerials, scheduleTopHalve,
      intOfUShort]
  · simp [readLine, readLineLoop, ingestAll, rxByte, initSerials, scheduleTopHalve]
    decide
  · simp [readLine, readLineLoop, ingestAll, rxByte, initSerials, scheduleTopHalve]

/-- With `len >= 2` below the length of the first buffered line, `readLine`
returns `len - 1` bytes without a terminator and keeps `lines`. -/
theorem readLine_truncated (LT : Nat) (p : Port) (buff : Nat → Nat) (len k : Nat)
    (hv : p.Valid) (hl : 0 < p.lines) (hk : k < available p)
    (hpre : ∀ j, j < k → byteAt p j ≠ LT) (h2 : 2 ≤ len) (hlen : len < k + 1) :
    (readLine LT p buff len).2.2 = ((len - 1 : Nat) : Int) ∧
    (∀ j, j < len - 1 → (readLine LT p buff len).2.1 j = byteAt p j ∧
      (readLine LT p buff len).2.1 j ≠ LT) ∧
    (readLine LT p buff len).2.1 (len - 1) = 0 ∧
    (readLine LT p buff len).1.tail = (p.tail + (len - 1)) % p.size ∧
    (readLine LT p buff len).1.lines = p.lines := by
  have hks : k < p.size := lt_trans hk (available_lt_size p hv)
  have hs := hv.2.1
  have hlen1 : (len + 65535) % 65536 = len - 1 := by omega
  obtain ⟨r1, r2, r3, r4⟩ := readLineLoop_limit LT (len - 1) (len - 2) p 0 buff hv
    (by intro j hj; exact hpre j (by omega)) (by omega)
  have hne : p.lines ≠ 0 := by omega
  have hR : readLine LT p buff len =
      ((readLineLoop LT (len - 1) p 0 buff).1,
        Function.update (readLineLoop LT (len - 1) p 0 buff).2.2
          (readLineLoop LT (len - 1) p 0 buff).2.1 0,
        intOfUShort (readLineLoop LT (len - 1) p 0 buff).2.1) := by
    unfold readLine
    simp only [hne, if_false, hlen1]
    rw [if_neg (by rw [r2]; omega)]
  rw [hR]
  dsimp only
  rw [r1, r2]
  have e : len - 2 + 1 = len - 1 := by omega
  refine ⟨?_, ?_, ?_, by rw [e], rfl⟩
  · unfold intOfUShort
    rw [if_pos (by omega)]
  · intro j hj
    rw [Function.update_noteq (by omega)]
    have := r3 j (by omega)
    rw [Nat.zero_add] at this
    rw [this]
    exact ⟨rfl, hpre j (by omega)⟩
  · exact Function.update_same _ _ _

/-- C3 (failing input): after `"AB\n"` was ingested the first line has three
bytes; `readLine` with `len = 1` returns 1 instead of `len - 1 = 0`, copies the
byte `'A'` and writes the 0 at destination index 1. -/
theorem readLine_len_one_copies_a_byte :
    (ingestAll 10 (initSerials 8 4) [65, 66, 10]).lines = 1 ∧
    (readLine 10 (ingestAll 10 (initSerials 8 4) [65, 66, 10]) (fun _ => 7) 1).2.2 = 1 ∧
    (readLine 10 (ingestAll 10 (initSerials 8 4) [65, 66, 10]) (fun _ => 7) 1).2.1 0 = 65 ∧
    (readLine 10 (ingestAll 10 (initSerials 8 4) [65, 66, 10]) (fun _ => 7) 1).2.1 1 = 0 ∧
    (readLine 10 (ingestAll 10 (initSerials 8 4) [65, 66, 10]) (fun _ => 7) 1).1.tail = 1 ∧
    (readLine 10 (ingestAll 10 (initSerials 8 4) [65, 66, 10]) (fun _ => 7) 1).1.lines = 1 := by
  refine ⟨by decide, ?_, ?_, ?_, ?_, ?_⟩ <;>
    simp [readLine, readLineLoop, ingestAll, rxByte, initSerials, scheduleTopHalve, intOfUShort]

/-! ## Overflow of the buffer -/

theorem ingestAll_cursor (LT : Nat) (cs : List Nat) :
    ∀ p : Port, p.Valid → p.tail = 0 → p.head + cs.length < p.size →
      (ingestAll LT p cs).head = p.head + cs.length ∧ (ingestAll LT p cs).tail = 0 ∧
      (ingestAll LT p cs).size = p.size := by
  induction cs with
  | nil => intro p _ ht _; exact ⟨rfl, ht, rfl⟩
  | cons c cs ih =>
    intro p hv ht hlen
    rw [List.length_cons] at hlen
    have hn := next_valid p hv p.head hv.2.2.2.1
    have hr : (p.head + 1) % p.size % 256 ≠ p.tail := by
      rw [hn, if_pos (by omega)]; omega
    obtain ⟨e1, e2, e3, e4, e5⟩ := rxByte_store LT c p hr
    rw [hn, if_pos (by omega)] at e2
    obtain ⟨i1, i2, i3⟩ := ih (rxByte LT c p) (rxByte_valid LT c p hv hr) (by rw [e3, ht])
      (by rw [e2, e4]; omega)
    refine ⟨?_, i2, i3.trans e4⟩
    show (ingestAll LT (rxByte LT c p) cs).head = _
    rw [i1, e2, List.length_cons]; omega

/-- C4: when `(head+1) % size == tail`, `rxByte` changes nothing of the port
but the count of `scheduleTopHalve` requests, which grows by exactly one; and
ingesting `size - 1` bytes after `initSerials` leads to such a state. -/
theorem rxByte_full_drops_byte (LT c : Nat) (p : Port) (h0 : 0 < p.size) (h255 : p.size ≤ 255)
    (hf : (p.head + 1) % p.size = p.tail) :
    rxByte LT c p = { p with topHalves := p.topHalves + 1 } ∧
    (rxByte LT c p).buffer = p.buffer ∧ (rxByte LT c p).head = p.head ∧
    (rxByte LT c p).tail = p.tail ∧ (rxByte LT c p).lines = p.lines ∧
    (rxByte LT c p).bytes = p.bytes ∧ (rxByte LT c p).topHalves = p.topHalves + 1 ∧
    (∀ (cap limit : Nat) (cs : List Nat), 0 < cap → cap ≤ 255 → cs.length = cap - 1 →
      ((ingestAll LT (initSerials cap limit) cs).head + 1)
          % (ingestAll LT (initSerials cap limit) cs).size
        = (ingestAll LT (initSerials cap limit) cs).tail ∧
      available (ingestAll LT (initSerials cap limit) cs) = cap - 1) := by
  have hi : (p.head + 1) % p.size % 256 = p.tail := by
    rw [← hf]
    exact Nat.mod_eq_of_lt (lt_of_lt_of_le (Nat.mod_lt _ h0) (by omega))
  have hR : rxByte LT c p = { p with topHalves := p.topHalves + 1 } := by
    unfold rxByte
    simp only [hi, ne_eq, not_true_eq_false, if_false, scheduleTopHalve]
  refine ⟨hR, ?_, ?_, ?_, ?_, ?_, ?_, ?_⟩
  any_goals rw [hR]
  intro cap limit cs hc0 hc255 hlen
  have hv := initSerials_valid cap limit hc0 hc255
  obtain ⟨i1, i2, i3⟩ := ingestAll_cursor LT cs (initSerials cap limit) hv rfl
    (by show 0 + cs.length < cap; omega)
  have hh : (ingestAll LT (initSerials cap limit) cs).head = cap - 1 := by
    rw [i1]; show 0 + cs.length = cap - 1; omega
  have hsz : (ingestAll LT (initSerials cap limit) cs).size = cap := i3
  have e : cap - 1 + 1 = cap := by omega
  constructor
  · rw [hh, hsz, i2, e, Nat.mod_self]
  · rw [available_eq _ (by omega) (by omega) (by omega), hh, hsz, i2, Nat.sub_zero,
      Nat.add_mod_left]
    exact Nat.mod_eq_of_lt (by omega)

theorem rxByte_full_drops_byte_witness :
    ((ingestAll 10 (initSerials 4 2) [65, 66, 67]).head + 1)
        % (ingestAll 10 (initSerials 4 2) [65, 66, 67]).size
      = (ingestAll 10 (initSerials 4 2) [65, 66, 67]).tail ∧
    rxByte 10 68 (ingestAll 10 (initSerials 4 2) [65, 66, 67])
      = { ingestAll 10 (initSerials 4 2) [65, 66, 67] with
          topHalves := (ingestAll 10 (initSerials 4 2) [65, 66, 67]).topHalves + 1 } ∧
    (rxByte 10 68 (ingestAll 10 (initSerials 4 2) [65, 66, 67])).buffer = [65, 66, 67, 0] :=
  ⟨by decide,
    (rxByte_full_drops_byte 10 68 (ingestAll 10 (initSerials 4 2) [65, 66, 67])
      (by decide) (by decide) (by decide)).1,
    by decide⟩

/-! ## Frame of the operations -/

theorem readLineLoop_frame (LT len : Nat) :
    ∀ (d : Nat) (p : Port) (i : Nat) (buff : Nat → Nat), len - i = d →
      (readLineLoop LT len p i buff).1
        = { p with tail := (readLineLoop LT len p i buff).1.tail } := by
  intro d
  induction d using Nat.strong_induction_on with
  | _ d ih =>
    intro p i buff hd
    rw [readLineLoop]
    split_ifs with h1 h2
    · exact ih (len - (i + 1)) (by omega) _ (i + 1) _ rfl
    · rfl
    · rfl

theorem readLine_frame (LT : Nat) (p : Port) (buff : Nat → Nat) (len : Nat) :
    (readLine LT p buff len).1.buffer = p.buffer ∧ (readLine LT p buff len).1.size = p.size ∧
    (readLine LT p buff len).1.limit = p.limit ∧ (readLine LT p buff len).1.head = p.head ∧
    (readLine LT p buff len).1.bytes = p.bytes ∧
    (readLine LT p buff len).1.topHalves = p.topHalves := by
  have hf := readLineLoop_frame LT ((len + 65535) % 65536) _ p 0 buff rfl
  by_cases h : p.lines = 0
  · have hR : readLine LT p buff len = (p, Function.update buff 0 0, -1) := by
      unfold readLine; rw [if_pos h]
    rw [hR]
    exact ⟨rfl, rfl, rfl, rfl, rfl, rfl⟩
  · by_cases h2 : (readLineLoop LT ((len + 65535) % 65536) p 0 buff).2.1 < (len + 65535) % 65536
    · have hR : (readLine LT p buff len).1 =
          { (readLineLoop LT ((len + 65535) % 65536) p 0 buff).1 with
            lines := ((readLineLoop LT ((len + 65535) % 65536) p 0 buff).1.lines + 255) % 256 } := by
        unfold readLine; rw [if_neg h]; dsimp only; rw [if_pos h2]
      rw [hR, hf]
      exact ⟨rfl, rfl, rfl, rfl, rfl, rfl⟩
    · have hR : (readLine LT p buff len).1 =
          (readLineLoop LT ((len + 65535) % 65536) p 0 buff).1 := by
        unfold readLine; rw [if_neg h]; dsimp only; rw [if_neg h2]
      rw [hR, hf]
      exact ⟨rfl, rfl, rfl, rfl, rfl, rfl⟩

theorem rxByte_tail (LT c : Nat) (p : Port) : (rxByte LT c p).tail = p.tail := by
  unfold rxByte scheduleTopHalve
  dsimp only
  split_ifs <;> rfl

theorem read_head (LT : Nat) (p : Port) : (read LT p).1.head = p.head := by
  unfold read
  dsimp only
  split_ifs <;> rfl

/-! ## The stored byte counter -/

/-- The counter `bytes` follows `available` through `rxByte` and `read`. -/
theorem bytes_tracks_rxByte_read (LT c : Nat) (p : Port) (hv : p.Valid)
    (hb : p.bytes = available p) :
    (rxByte LT c p).bytes = available (rxByte LT c p) ∧
    (read LT p).1.bytes = available (read LT p).1 := by
  have hlt := available_lt_size p hv
  have hs := hv.2.1
  constructor
  · by_cases hr : (p.head + 1) % p.size % 256 = p.tail
    · have : rxByte LT c p = { p with topHalves := p.topHalves + 1 } := by
        unfold rxByte
        simp only [hr, ne_eq, not_true_eq_false, if_false, scheduleTopHalve]
      rw [this]
      exact hb
    · rw [(rxByte_unread LT c p hv hr).2]
      have hb2 : (rxByte LT c p).bytes = (p.bytes + 1) % 256 := by
        unfold rxByte scheduleTopHalve
        simp only [hr, ne_eq, not_false_eq_true, if_true]
        split_ifs <;> rfl
      rw [hb2, hb]
      omega
  · by_cases he : p.head = p.tail
    · rw [read_empty LT p he]; exact hb
    · have ha := (read_unread LT p hv he).2
      have hb2 : (read LT p).1.bytes = (p.bytes + 255) % 256 := by
        unfold read
        simp only [he, if_false]
        split_ifs <;> rfl
      rw [hb2, hb]
      omega

/-- C5 (failing inputs): `flush` and `readLine` leave `bytes` as it was while
they empty the buffer; after `initSerials`, one ingested byte and `flush` the
counter is 1 and `available` is 0, and after `"A\n"` was ingested and read
back by `readLine` the counter is 2 and `available` is 0. -/
theorem flush_and_readLine_keep_bytes :
    (initSerials 8 4).bytes = available (initSerials 8 4) ∧
    (rxByte 10 65 (initSerials 8 4)).bytes = available (rxByte 10 65 (initSerials 8 4)) ∧
    (flush (rxByte 10 65 (initSerials 8 4))).bytes = 1 ∧
    available (flush (rxByte 10 65 (initSerials 8 4))) = 0 ∧
    (readLine 10 (ingestAll 10 (initSerials 8 4) [65, 10]) (fun _ => 0) 16).1.bytes = 2 ∧
    available (readLine 10 (ingestAll 10 (initSerials 8 4) [65, 10]) (fun _ => 0) 16).1 = 0 := by
  refine ⟨by decide, by decide, by decide, by decide, ?_, ?_⟩
  · simp [readLine, readLineLoop, ingestAll, rxByte, initSerials, scheduleTopHalve]
  · simp [readLine, readLineLoop, ingestAll, rxByte, initSerials, scheduleTopHalve, available]

/-! ## Writers of the cursors -/

/-- C6 (counterexample): `flush`, a mainline operation, writes `head`. -/
theorem flush_writes_head :
    (rxByte 10 65 (initSerials 8 4)).head = 1 ∧
    (flush (rxByte 10 65 (initSerials 8 4))).head = 0 := by
  decide

/-- C6 (amended): `rxByte` leaves `tail` unchanged; `read` and `readLine`
leave `head` unchanged (`available` and `look` assign nothing); `flush` leaves
`tail` unchanged and assigns `tail` to `head`. -/
theorem cursor_writers (LT c : Nat) (p : Port) (buff : Nat → Nat) (len : Nat) :
    (rxByte LT c p).tail = p.tail ∧ (read LT p).1.head = p.head ∧
    (readLine LT p buff len).1.head = p.head ∧
    (flush p).tail = p.tail ∧ (flush p).head = p.tail :=
  ⟨rxByte_tail LT c p, read_head LT p, (readLine_frame LT p buff len).2.2.2.1, rfl, rfl⟩

/-! ## The not-available value -/

/-- The value returned by `look` is the not-available value exactly when the
buffer is empty or the byte at the read cursor is `0xFF`. -/
theorem look_not_available_iff (p : Port) :
    look p = charOfInt (-1) ↔ p.head = p.tail ∨ p.buffer.getD p.tail 0 = 255 := by
  have e : charOfInt (-1) = 255 := by decide
  unfold look
  rw [e]
  split_ifs with h
  · simp [h]
  · simp [h]

/-- C7 (failing input): after the byte `0xFF` was ingested the buffer is not
empty, and `look` and `read` return the not-available value `(char)-1`. -/
theorem look_read_byte_255 :
    (rxByte 10 255 (initSerials 8 4)).head ≠ (rxByte 10 255 (initSerials 8 4)).tail ∧
    available (rxByte 10 255 (initSerials 8 4)) = 1 ∧
    look (rxByte 10 255 (initSerials 8 4)) = charOfInt (-1) ∧
    (read 10 (rxByte 10 255 (initSerials 8 4))).2 = charOfInt (-1) ∧
    look (initSerials 8 4) = charOfInt (-1) := by
  decide

/-! ## `flush` and the empty cases -/

/-- C8: after `flush`, `available` is 0, `look` returns the not-available
value, `lines` is 0, and `tail` is unchanged, `head` having been moved to it. -/
theorem flush_empties (p : Port) :
    available (flush p) = 0 ∧ look (flush p) = charOfInt (-1) ∧ (flush p).lines = 0 ∧
    (flush p).tail = p.tail ∧ (flush p).head = p.tail := by
  refine ⟨?_, ?_, rfl, rfl, rfl⟩
  · unfold available flush
    dsimp only
    have e : (p.size : Int) + (p.tail : Int) - (p.tail : Int) = (p.size : Int) := by omega
    rw [e, Int.tmod_self]
    rfl
  · unfold look flush
    simp

/-- C9: with `lines == 0`, `readLine` returns -1, writes a 0 at destination
index 0 and nothing else, and leaves the port state unchanged. -/
theorem readLine_no_line (LT : Nat) (p : Port) (buff : Nat → Nat) (len : Nat)
    (h : p.lines = 0) (_hlen : 1 ≤ len) :
    (readLine LT p buff len).2.2 = -1 ∧
    (readLine LT p buff len).2.1 0 = 0 ∧
    (∀ x, x ≠ 0 → (readLine LT p buff len).2.1 x = buff x) ∧
    (readLine LT p buff len).1 = p := by
  have hR : readLine LT p buff len = (p, Function.update buff 0 0, -1) := by
    unfold readLine; rw [if_pos h]
  rw [hR]
  refine ⟨rfl, ?_, ?_, rfl⟩
  · show Function.update buff 0 0 0 = 0
    exact Function.update_same 0 0 buff
  · intro x hx
    show Function.update buff 0 0 x = buff x
    exact Function.update_noteq hx 0 buff

theorem readLine_no_line_witness :
    (ingestAll 10 (initSerials 8 4) [65, 66]).lines = 0 ∧
    available (ingestAll 10 (initSerials 8 4) [65, 66]) = 2 ∧
    (readLine 10 (ingestAll 10 (initSerials 8 4) [65, 66]) (fun _ => 7) 16).2.2 = -1 ∧
    (readLine 10 (ingestAll 10 (initSerials 8 4) [65, 66]) (fun _ => 7) 16).2.1 0 = 0 ∧
    (readLine 10 (ingestAll 10 (initSerials 8 4) [65, 66]) (fun _ => 7) 16).1
      = ingestAll 10 (initSerials 8 4) [65, 66] :=
  ⟨by decide, by decide,
    (readLine_no_line 10 (ingestAll 10 (initSerials 8 4) [65, 66]) (fun _ => 7) 16
      (by decide) (by decide)).1,
    (readLine_no_line 10 (ingestAll 10 (initSerials 8 4) [65, 66]) (fun _ => 7) 16
      (by decide) (by decide)).2.1,
    (readLine_no_line 10 (ingestAll 10 (initSerials 8 4) [65, 66]) (fun _ => 7) 16
      (by decide) (by decide)).2.2.2⟩

/-! ## The overflow threshold -/

theorem run_append (LT : Nat) (p : Port) (a b : List Op) :
    run LT p (a ++ b) = run LT (run LT p a) b := by
  unfold run
  exact List.foldl_append _ _ _ _

theorem run_rx (LT : Nat) (cs : List Nat) :
    ∀ p : Port, run LT p (cs.map Op.rx) = ingestAll LT p cs := by
  induction cs with
  | nil => intro p; rfl
  | cons c cs ih => intro p; exact ih (rxByte LT c p)

theorem ingestAll_state (LT : Nat) (cs : List Nat) :
    ∀ p : Port, p.Valid → p.tail = 0 → p.head + cs.length < p.size → p.bytes < 256 →
      (ingestAll LT p cs).Valid ∧
      (ingestAll LT p cs).head = p.head + cs.length ∧ (ingestAll LT p cs).tail = 0 ∧
      (ingestAll LT p cs).size = p.size ∧ (ingestAll LT p cs).limit = p.limit ∧
      (ingestAll LT p cs).bytes = (p.bytes + cs.length) % 256 := by
  induction cs with
  | nil =>
    intro p hv ht _ hb
    refine ⟨hv, rfl, ht, rfl, rfl, ?_⟩
    show p.bytes = (p.bytes + 0) % 256
    omega
  | cons c cs ih =>
    intro p hv ht hlen hb
    rw [List.length_cons] at hlen
    have hn := next_valid p hv p.head hv.2.2.2.1
    have hr : (p.head + 1) % p.size % 256 ≠ p.tail := by
      rw [hn, if_pos (by omega)]; omega
    obtain ⟨e1, e2, e3, e4, e5, e6⟩ := rxByte_store LT c p hr
    rw [hn, if_pos (by omega)] at e2
    obtain ⟨i0, i1, i2, i3, i4, i5⟩ := ih (rxByte LT c p) (rxByte_valid LT c p hv hr)
      (by rw [e3, ht]) (by rw [e2, e4]; omega) (by rw [e6]; omega)
    refine ⟨i0, ?_, i2, i3.trans e4, i4.trans e5, ?_⟩
    · show (ingestAll LT (rxByte LT c p) cs).head = _
      rw [i1, e2, List.length_cons]; omega
    · show (ingestAll LT (rxByte LT c p) cs).bytes = _
      rw [i5, e6, List.length_cons]; omega

/-- A round of `n` ingested bytes followed by `flush`, from an empty buffer
with both cursors at slot 0: the cursors return to slot 0 and `bytes` has
grown by `n` modulo 256. -/
theorem round_state (LT c n : Nat) (p : Port) (hv : p.Valid) (hh : p.head = 0)
    (ht : p.tail = 0) (hn : n < p.size) (hb : p.bytes < 256) :
    (run LT p (List.replicate n (Op.rx c) ++ [Op.fl])).Valid ∧
    (run LT p (List.replicate n (Op.rx c) ++ [Op.fl])).head = 0 ∧
    (run LT p (List.replicate n (Op.rx c) ++ [Op.fl])).tail = 0 ∧
    (run LT p (List.replicate n (Op.rx c) ++ [Op.fl])).size = p.size ∧
    (run LT p (List.replicate n (Op.rx c) ++ [Op.fl])).limit = p.limit ∧
    (run LT p (List.replicate n (Op.rx c) ++ [Op.fl])).bytes = (p.bytes + n) % 256 := by
  have e : List.replicate n (Op.rx c) = (List.replicate n c).map Op.rx := by
    rw [List.map_replicate]
  obtain ⟨i0, i1, i2, i3, i4, i5⟩ := ingestAll_state LT (List.replicate n c) p hv ht
    (by rw [hh, List.length_replicate]; omega) hb
  rw [List.length_replicate] at i5
  rw [run_append, e, run_rx]
  show (flush _).Valid ∧ (flush _).head = 0 ∧ (flush _).tail = 0 ∧ (flush _).size = p.size ∧
    (flush _).limit = p.limit ∧ (flush _).bytes = (p.bytes + n) % 256
  refine ⟨?_, i2, i2, i3, i4, i5⟩
  obtain ⟨v0, v1, v2, v3, v4⟩ := i0
  exact ⟨v0, v1, v2, v4, v4⟩

theorem rounds_state (LT c n : Nat) (k : Nat) :
    ∀ p : Port, p.Valid → p.head = 0 → p.tail = 0 → n < p.size → p.bytes < 256 →
      (run LT p (List.replicate k (List.replicate n (Op.rx c) ++ [Op.fl])).flatten).Valid ∧
      (run LT p (List.replicate k (List.replicate n (Op.rx c) ++ [Op.fl])).flatten).head = 0 ∧
      (run LT p (List.replicate k (List.replicate n (Op.rx c) ++ [Op.fl])).flatten).tail = 0 ∧
      (run LT p (List.replicate k (List.replicate n (Op.rx c) ++ [Op.fl])).flatten).size
        = p.size ∧
      (run LT p (List.replicate k (List.replicate n (Op.rx c) ++ [Op.fl])).flatten).limit
        = p.limit ∧
      (run LT p (List.replicate k (List.replicate n (Op.rx c) ++ [Op.fl])).flatten).bytes
        = (p.bytes + k * n) % 256 := by
  induction k with
  | zero =>
    intro p hv hh ht _ hb
    refine ⟨hv, hh, ht, rfl, rfl, ?_⟩
    show p.bytes = (p.bytes + 0 * n) % 256
    omega
  | succ k ih =>
    intro p hv hh ht hn hb
    obtain ⟨r0, r1, r2, r3, r4, r5⟩ := round_state LT c n p hv hh ht hn hb
    obtain ⟨i0, i1, i2, i3, i4, i5⟩ := ih _ r0 r1 r2 (by rw [r3]; exact hn)
      (by rw [r5]; omega)
    rw [List.replicate_succ, List.flatten_cons, run_append]
    refine ⟨i0, i1, i2, i3.trans r3, i4.trans r4, ?_⟩
    rw [i5, r5, Nat.succ_mul]
    omega

/-- A stored byte that is not the terminator and leaves `bytes` at or below
the threshold issues no `scheduleTopHalve`. -/
theorem rxByte_no_request (LT c : Nat) (p : Port) (hr : (p.head + 1) % p.size % 256 ≠ p.tail)
    (hc : c ≠ LT) (hb : (p.bytes + 1) % 256 ≤ p.limit) :
    (rxByte LT c p).topHalves = p.topHalves := by
  unfold rxByte
  simp only [hr, ne_eq, not_false_eq_true, if_true, hc, if_false]
  rw [if_neg (by simpa using hb)]

/-- C10 (failing input): capacity 8, threshold 4.  Thirty-six rounds of seven
ingested bytes and a `flush`, then four ingested bytes, leave `bytes` at 0
with four unread bytes.  The next `rxByte` stores its byte and leaves five
unread bytes, more than the threshold, and issues no `scheduleTopHalve`. -/
theorem rxByte_over_threshold_no_request :
    (run 10 (initSerials 8 4) ((List.replicate 36
        (List.replicate 7 (Op.rx 65) ++ [Op.fl])).flatten
        ++ List.replicate 4 (Op.rx 65))).bytes = 0 ∧
    available (run 10 (initSerials 8 4) ((List.replicate 36
        (List.replicate 7 (Op.rx 65) ++ [Op.fl])).flatten
        ++ List.replicate 4 (Op.rx 65))) = 4 ∧
    (rxByte 10 65 (run 10 (initSerials 8 4) ((List.replicate 36
        (List.replicate 7 (Op.rx 65) ++ [Op.fl])).flatten
        ++ List.replicate 4 (Op.rx 65)))).head = 5 ∧
    available (rxByte 10 65 (run 10 (initSerials 8 4) ((List.replicate 36
        (List.replicate 7 (Op.rx 65) ++ [Op.fl])).flatten
        ++ List.replicate 4 (Op.rx 65)))) = 5 ∧
    (rxByte 10 65 (run 10 (initSerials 8 4) ((List.replicate 36
        (List.replicate 7 (Op.rx 65) ++ [Op.fl])).flatten
        ++ List.replicate 4 (Op.rx 65)))).limit = 4 ∧
    (rxByte 10 65 (run 10 (initSerials 8 4) ((List.replicate 36
        (List.replicate 7 (Op.rx 65) ++ [Op.fl])).flatten
        ++ List.replicate 4 (Op.rx 65)))).topHalves
      = (run 10 (initSerials 8 4) ((List.replicate 36
        (List.replicate 7 (Op.rx 65) ++ [Op.fl])).flatten
        ++ List.replicate 4 (Op.rx 65))).topHalves := by
  obtain ⟨r0, r1, r2, r3, r4, r5⟩ := rounds_state 10 65 7 36 (initSerials 8 4)
    (by decide) rfl rfl (by decide) (by decide)
  have e : List.replicate 4 (Op.rx 65) = (List.replicate 4 65).map Op.rx := by
    rw [List.map_replicate]
  obtain ⟨i0, i1, i2, i3, i4, i5⟩ := ingestAll_state 10 (List.replicate 4 65) _ r0 r2
    (by rw [r1, r3]; decide) (by rw [r5]; omega)
  rw [r1] at i1
  rw [r3] at i3
  rw [r4] at i4
  rw [r5] at i5
  rw [run_append, e, run_rx]
  have hh : (ingestAll 10 (run 10 (initSerials 8 4) (List.replicate 36
      (List.replicate 7 (Op.rx 65) ++ [Op.fl])).flatten) (List.replicate 4 65)).head = 4 := i1
  have hs : (ingestAll 10 (run 10 (initSerials 8 4) (List.replicate 36
      (List.replicate 7 (Op.rx 65) ++ [Op.fl])).flatten) (List.replicate 4 65)).size = 8 := i3
  have hl : (ingestAll 10 (run 10 (initSerials 8 4) (List.replicate 36
      (List.replicate 7 (Op.rx 65) ++ [Op.fl])).flatten) (List.replicate 4 65)).limit = 4 := i4
  have hb : (ingestAll 10 (run 10 (initSerials 8 4) (List.replicate 36
      (List.replicate 7 (Op.rx 65) ++ [Op.fl])).flatten) (List.replicate 4 65)).bytes = 0 := i5
  have ha := available_valid _ i0
  rw [hh, i2, hs, if_pos (Nat.zero_le 4)] at ha
  have hr : ((ingestAll 10 (run 10 (initSerials 8 4) (List.replicate 36
      (List.replicate 7 (Op.rx 65) ++ [Op.fl])).flatten) (List.replicate 4 65)).head + 1)
      % (ingestAll 10 (run 10 (initSerials 8 4) (List.replicate 36
      (List.replicate 7 (Op.rx 65) ++ [Op.fl])).flatten) (List.replicate 4 65)).size % 256
      ≠ (ingestAll 10 (run 10 (initSerials 8 4) (List.replicate 36
      (List.replicate 7 (Op.rx 65) ++ [Op.fl])).flatten) (List.replicate 4 65)).tail := by
    rw [hh, hs, i2]; decide
  obtain ⟨e1, e2, e3, e4, e5, e6⟩ := rxByte_store 10 65 _ hr
  refine ⟨hb, ha, ?_, ?_, e5.trans hl, ?_⟩
  · rw [e2, hh, hs]
  · rw [(rxByte_unread 10 65 _ i0 hr).2, ha]
  · exact rxByte_no_request 10 65 _ hr (by decide) (by rw [hb, hl]; decide)

/-! ## `look` -/

/-- C11: `look` assigns nothing (it is a function of the port state that
returns a `char` only, so `head`, `tail`, `lines`, `bytes` and the buffer are
as before), and the value it returns is the value an immediately following
`read` returns: the byte at the `tail` slot when `head != tail`, the
not-available value when `head == tail`. -/
theorem look_is_next_read (LT : Nat) (p : Port) :
    look p = (read LT p).2 ∧
    (p.head ≠ p.tail → look p = p.buffer.getD p.tail 0) ∧
    (p.head = p.tail → look p = charOfInt (-1)) := by
  refine ⟨?_, ?_, ?_⟩
  · by_cases h : p.head = p.tail
    · rw [read_empty LT p h]; unfold look; rw [if_pos h]
    · rw [(read_fields LT p h).1]; unfold look; rw [if_neg h]
  · intro h; unfold look; rw [if_neg h]
  · intro h; unfold look; rw [if_pos h]

/-! ## Bounds of the cursors -/

theorem readLineLoop_valid (LT len : Nat) :
    ∀ (d : Nat) (p : Port) (i : Nat) (buff : Nat → Nat), len - i = d → p.Valid →
      (readLineLoop LT len p i buff).1.Valid := by
  intro d
  induction d using Nat.strong_induction_on with
  | _ d ih =>
    intro p i buff hd hv
    rw [readLineLoop]
    split_ifs with h1 h2
    · exact ih (len - (i + 1)) (by omega) _ (i + 1) _ rfl (advance_valid p hv)
    · exact advance_valid p hv
    · exact advance_valid p hv

theorem readLine_valid (LT : Nat) (p : Port) (buff : Nat → Nat) (len : Nat) (hv : p.Valid) :
    (readLine LT p buff len).1.Valid := by
  have hl := readLineLoop_valid LT ((len + 65535) % 65536) _ p 0 buff rfl hv
  by_cases h : p.lines = 0
  · have hR : readLine LT p buff len = (p, Function.update buff 0 0, -1) := by
      unfold readLine; rw [if_pos h]
    rw [hR]
    exact hv
  · by_cases h2 : (readLineLoop LT ((len + 65535) % 65536) p 0 buff).2.1 < (len + 65535) % 65536
    · have hR : (readLine LT p buff len).1 =
          { (readLineLoop LT ((len + 65535) % 65536) p 0 buff).1 with
            lines := ((readLineLoop LT ((len + 65535) % 65536) p 0 buff).1.lines + 255) % 256 } := by
        unfold readLine; rw [if_neg h]; dsimp only; rw [if_pos h2]
      rw [hR]
      exact hl
    · have hR : (readLine LT p buff len).1 =
          (readLineLoop LT ((len + 65535) % 65536) p 0 buff).1 := by
        unfold readLine; rw [if_neg h]; dsimp only; rw [if_neg h2]
      rw [hR]
      exact hl

theorem rxByte_valid_all (LT c : Nat) (p : Port) (hv : p.Valid) : (rxByte LT c p).Valid := by
  by_cases hr : (p.head + 1) % p.size % 256 = p.tail
  · have : rxByte LT c p = { p with topHalves := p.topHalves + 1 } := by
      unfold rxByte
      simp only [hr, ne_eq, not_true_eq_false, if_false, scheduleTopHalve]
    rw [this]
    exact hv
  · exact rxByte_valid LT c p hv hr

theorem flush_valid (p : Port) (hv : p.Valid) : (flush p).Valid := by
  obtain ⟨h0, hs, hl, hh, ht⟩ := hv
  exact ⟨h0, hs, hl, ht, ht⟩

theorem step_valid (LT : Nat) (p : Port) (op : Op) (hv : p.Valid) : (step LT p op).Valid := by
  cases op with
  | rx c => exact rxByte_valid_all LT c p hv
  | rd => exact read_valid LT p hv
  | rdLine len => exact readLine_valid LT p _ len hv
  | fl => exact flush_valid p hv

theorem run_valid (LT : Nat) (ops : List Op) :
    ∀ p : Port, p.Valid → (run LT p ops).Valid := by
  induction ops with
  | nil => intro p hv; exact hv
  | cons op ops ih => intro p hv; exact ih _ (step_valid LT p op hv)

/-- C19: for a capacity from 1 to 255 the bounds `head < size` and
`tail < size` (with a buffer of `size` slots) hold after `initSerials`, are
preserved by `rxByte`, `read`, `readLine` and `flush`, and so hold in every
state these operations reach, where the slots `buffer[head]` and
`buffer[tail]` they and `look` access exist. -/
theorem cursors_stay_in_buffer (LT cap limit : Nat) (h1 : 1 ≤ cap) (h255 : cap ≤ 255) :
    (initSerials cap limit).Valid ∧
    (∀ (p : Port) (c : Nat) (buff : Nat → Nat) (len : Nat), p.Valid →
      (rxByte LT c p).Valid ∧ (read LT p).1.Valid ∧ (readLine LT p buff len).1.Valid ∧
      (flush p).Valid) ∧
    (∀ ops : List Op,
      (run LT (initSerials cap limit) ops).head < cap ∧
      (run LT (initSerials cap limit) ops).tail < cap ∧
      (run LT (initSerials cap limit) ops).buffer.length = cap ∧
      (run LT (initSerials cap limit) ops).size = cap) := by
  have hv := initSerials_valid cap limit (by omega) h255
  refine ⟨hv, ?_, ?_⟩
  · intro p c buff len hp
    exact ⟨rxByte_valid_all LT c p hp, read_valid LT p hp, readLine_valid LT p buff len hp,
      flush_valid p hp⟩
  · intro ops
    have hsz : ∀ (ops : List Op) (p : Port), p.Valid → (run LT p ops).size = p.size := by
      intro ops
      induction ops with
      | nil => intro p _; rfl
      | cons op ops ih =>
        intro p hp
        have e : (step LT p op).size = p.size := by
          cases op with
          | rx c =>
            by_cases hr : (p.head + 1) % p.size % 256 = p.tail
            · show (rxByte LT c p).size = p.size
              unfold rxByte
              simp only [hr, ne_eq, not_true_eq_false, if_false, scheduleTopHalve]
            · exact (rxByte_store LT c p hr).2.2.2.1
          | rd =>
            by_cases he : p.head = p.tail
            · show (read LT p).1.size = p.size
              rw [read_empty LT p he]
            · exact (read_fields LT p he).2.2.2.2.1
          | rdLine len => exact (readLine_frame LT p _ len).2.1
          | fl => rfl
        exact (ih _ (step_valid LT p op hp)).trans e
    have hr := run_valid LT ops _ hv
    have hs : (run LT (initSerials cap limit) ops).size = cap := hsz ops _ hv
    obtain ⟨_, _, v2, v3, v4⟩ := hr
    rw [hs] at v2 v3 v4
    exact ⟨v3, v4, v2, hs⟩

theorem cursors_stay_in_buffer_witness :
    (initSerials 1 0).Valid ∧
    (run 10 (initSerials 1 0) [Op.rx 65, Op.rd, Op.rdLine 1, Op.fl]).head < 1 ∧
    (run 10 (initSerials 3 2) [Op.rx 65, Op.rx 10, Op.rdLine 1, Op.rx 66, Op.fl, Op.rd]).tail
      < 3 :=
  ⟨(cursors_stay_in_buffer 10 1 0 (by decide) (by decide)).1,
    ((cursors_stay_in_buffer 10 1 0 (by decide) (by decide)).2.2 _).1,
    ((cursors_stay_in_buffer 10 3 2 (by decide) (by decide)).2.2 _).2.1⟩

/-! ## Transmit path -/

theorem print_ready (port c : Nat) (t : Tx) (h : t.ready port) :
    print port c t = some (t.written port [c]) ∧ (t.written port [c]).ready port := by
  unfold Tx.ready at h
  unfold print Tx.written Tx.ready
  have e : (1 <<< UDRE) % 256 = 32 := by decide
  rw [e]
  split_ifs at h ⊢ with hp
  · exact ⟨rfl, h⟩
  · exact ⟨rfl, h⟩

theorem written_written (port : Nat) (a b : List Nat) (t : Tx) :
    (t.written port a).written port b = t.written port (a ++ b) := by
  unfold Tx.written
  split_ifs <;> simp

theorem written_nil (port : Nat) (t : Tx) : t.written port [] = t := by
  unfold Tx.written
  split_ifs <;> simp

theorem printStr_ready (port : Nat) (s : List Nat) (rest : List Nat) :
    ∀ t : Tx, t.ready port → (∀ c, c ∈ s → c ≠ 0) →
      printStr port (s ++ 0 :: rest) t = some (t.written port s) ∧
      printStr port s t = some (t.written port s) ∧
      s.foldlM (fun u c => print port c u) t = some (t.written port s) ∧
      (t.written port s).ready port := by
  induction s with
  | nil =>
    intro t h _
    rw [written_nil]
    exact ⟨by simp [printStr], rfl, rfl, h⟩
  | cons c s ih =>
    intro t h hs
    obtain ⟨hp, hr⟩ := print_ready port c t h
    have hc : c ≠ 0 := hs c (List.mem_cons_self c s)
    obtain ⟨i1, i2, i3, i4⟩ := ih (t.written port [c]) hr
      (fun d hd => hs d (List.mem_cons_of_mem c hd))
    rw [written_written] at i1 i2 i3 i4
    refine ⟨?_, ?_, ?_, i4⟩
    · show printStr port (c :: (s ++ 0 :: rest)) t = _
      rw [printStr, if_pos hc, hp]
      exact i1
    · rw [printStr, if_pos hc, hp]
      exact i2
    · rw [List.foldlM_cons, hp]
      exact i3

/-- C16: with the transmitter-ready flag of the port set, for a string whose
bytes `s` (none of them 0) are followed in memory by the NUL, `printLine`
writes to the data register of the port the bytes of `s` in order, then `'\n'`
(10), then `'\r'` (13), and `printStr` writes the bytes of `s` in order, which
is what calling `print` on each byte of `s` in turn writes. -/
theorem printLine_writes_line (port : Nat) (s rest : List Nat) (t : Tx)
    (hready : t.ready port) (hs : ∀ c, c ∈ s → c ≠ 0) :
    printLine port (s ++ 0 :: rest) t = some (t.written port (s ++ [10, 13])) ∧
    printStr port (s ++ 0 :: rest) t = some (t.written port s) ∧
    printStr port (s ++ 0 :: rest) t = s.foldlM (fun u c => print port c u) t := by
  obtain ⟨i1, _, i3, i4⟩ := printStr_ready port s rest t hready hs
  obtain ⟨n1, n2⟩ := print_ready port 10 _ i4
  obtain ⟨r1, _⟩ := print_ready port 13 _ n2
  refine ⟨?_, i1, i1.trans i3.symm⟩
  unfold printLine
  rw [i1, Option.some_bind, n1, Option.some_bind, r1, written_written, written_written]
  rfl

theorem printLine_writes_line_witness :
    printLine 0 [72, 105, 0, 33] { UCSR0A := 32, UCSR1A := 0, UDR0 := [], UDR1 := [] }
      = some { UCSR0A := 32, UCSR1A := 0, UDR0 := [72, 105, 10, 13], UDR1 := [] } ∧
    printStr 1 [72, 105, 0, 33] { UCSR0A := 0, UCSR1A := 32, UDR0 := [], UDR1 := [] }
      = some { UCSR0A := 0, UCSR1A := 32, UDR0 := [], UDR1 := [72, 105] } :=
  ⟨(printLine_writes_line 0 [72, 105] [33]
      { UCSR0A := 32, UCSR1A := 0, UDR0 := [], UDR1 := [] } (by decide) (by decide)).1,
    (printLine_writes_line 1 [72, 105] [33]
      { UCSR0A := 0, UCSR1A := 32, UDR0 := [], UDR1 := [] } (by decide) (by decide)).2.1⟩

/-! ## The line counter -/

theorem available_congr (p q : Port) (hs : q.size = p.size) (hh : q.head = p.head)
    (ht : q.tail = p.tail) : available q = available p := by
  unfold available
  rw [hs, hh, ht]

theorem unread_congr (p q : Port) (hb : q.buffer = p.buffer) (hs : q.size = p.size)
    (hh : q.head = p.head) (ht : q.tail = p.tail) : unread q = unread p := by
  unfold unread
  rw [available_congr p q hs hh ht, hb, hs, ht]

theorem unread_eq_map (p : Port) : unread p = (List.range (available p)).map (byteAt p) := rfl

theorem unread_length (p : Port) : (unread p).length = available p := by
  simp [unread]

theorem unread_advance (p : Port) (hv : p.Valid) (hne : p.head ≠ p.tail) :
    unread p = byteAt p 0 :: unread { p with tail := (p.tail + 1) % p.size % 256 } ∧
    available p = available { p with tail := (p.tail + 1) % p.size % 256 } + 1 := by
  obtain ⟨e0, e1, e2, e3, e4, _⟩ := read_fields 0 p hne
  obtain ⟨hu, ha⟩ := read_unread 0 p hv hne
  have hc := unread_congr { p with tail := (p.tail + 1) % p.size % 256 } (read 0 p).1
    e1 e4 e2 e3
  have hac := available_congr { p with tail := (p.tail + 1) % p.size % 256 } (read 0 p).1
    e4 e2 e3
  rw [hc, e0, ← byteAt_zero p hv] at hu
  rw [hac] at ha
  exact ⟨hu, ha⟩

theorem tail_mod_256 (p : Port) (hv : p.Valid) :
    (p.tail + 1) % p.size % 256 = (p.tail + 1) % p.size :=
  Nat.mod_eq_of_lt (lt_of_lt_of_le (Nat.mod_lt _ hv.1) (by have := hv.2.1; omega))

theorem nonempty_of_available (p : Port) (hv : p.Valid) (h : 0 < available p) :
    p.head ≠ p.tail := by
  intro he
  rw [empty_of_eq p hv he] at h
  exact Nat.lt_irrefl 0 h

/-- Skipping `m` unread bytes without a terminator keeps the number of
terminators among the unread bytes. -/
theorem count_skip (LT : Nat) :
    ∀ (m : Nat) (p : Port), p.Valid → m ≤ available p → (∀ j, j < m → byteAt p j ≠ LT) →
      (unread p).count LT = (unread { p with tail := (p.tail + m) % p.size }).count LT ∧
      available p = available { p with tail := (p.tail + m) % p.size } + m := by
  intro m
  induction m with
  | zero =>
    intro p hv _ _
    have e : (p.tail + 0) % p.size = p.tail := Nat.mod_eq_of_lt hv.2.2.2.2
    rw [e]
    exact ⟨rfl, rfl⟩
  | succ m ih =>
    intro p hv hm hpre
    have hne := nonempty_of_available p hv (by omega)
    obtain ⟨hu, ha⟩ := unread_advance p hv hne
    obtain ⟨i1, i2⟩ := ih { p with tail := (p.tail + 1) % p.size % 256 } (advance_valid p hv)
      (by omega) (by intro j hj; rw [advance_byteAt p hv]; exact hpre (j + 1) (by omega))
    have et := advance_tail p hv m
    simp only [et] at i1 i2
    constructor
    · rw [hu, List.count_cons_of_ne (Ne.symm (hpre 0 (by omega))), i1]
    · rw [ha, i2]; omega

/-- Skipping the unread bytes up to the first terminator, at offset `k`,
removes one terminator from the unread bytes. -/
theorem count_skip_line (LT : Nat) (k : Nat) (p : Port) (hv : p.Valid) (hk : k < available p)
    (hpre : ∀ j, j < k → byteAt p j ≠ LT) (ht : byteAt p k = LT) :
    (unread p).count LT
      = (unread { p with tail := (p.tail + (k + 1)) % p.size }).count LT + 1 ∧
    available p = available { p with tail := (p.tail + (k + 1)) % p.size } + (k + 1) := by
  obtain ⟨c1, c2⟩ := count_skip LT k p hv (by omega) hpre
  have hvk : Port.Valid { p with tail := (p.tail + k) % p.size } := by
    obtain ⟨h0, hs, hl, hh, _⟩ := hv
    exact ⟨h0, hs, hl, hh, Nat.mod_lt _ h0⟩
  have hne := nonempty_of_available _ hvk (by omega)
  obtain ⟨hu, ha⟩ := unread_advance _ hvk hne
  have e0 : byteAt { p with tail := (p.tail + k) % p.size } 0 = LT := by
    rw [← ht]
    unfold byteAt
    show p.buffer.getD (((p.tail + k) % p.size + 0) % p.size) 0 = _
    rw [Nat.add_zero, Nat.mod_mod]
  have e1 : ((p.tail + k) % p.size + 1) % p.size % 256 = (p.tail + (k + 1)) % p.size := by
    have := tail_mod_256 _ hvk
    simp only at this
    rw [this, Nat.mod_add_mod, Nat.add_assoc]
  simp only [e1] at hu ha
  constructor
  · rw [c1, hu, e0, List.count_cons_self]
  · rw [c2, ha]; omega

theorem first_terminator (LT : Nat) (p : Port) (h : 0 < (unread p).count LT) :
    ∃ k, k < available p ∧ (∀ j, j < k → byteAt p j ≠ LT) ∧ byteAt p k = LT := by
  have hm : LT ∈ unread p := List.count_pos_iff.mp h
  rw [unread_eq_map, List.mem_map] at hm
  obtain ⟨j0, hj0, hb0⟩ := hm
  have hex : ∃ j, j < available p ∧ byteAt p j = LT := ⟨j0, List.mem_range.mp hj0, hb0⟩
  refine ⟨Nat.find hex, (Nat.find_spec hex).1, ?_, (Nat.find_spec hex).2⟩
  intro j hj hb
  exact Nat.find_min hex hj ⟨lt_trans hj (Nat.find_spec hex).1, hb⟩

theorem count_le_available (LT : Nat) (p : Port) : (unread p).count LT ≤ available p := by
  rw [← unread_length p]
  exact List.count_le_length _ _

theorem rxByte_lines (LT c : Nat) (p : Port) (hr : (p.head + 1) % p.size % 256 ≠ p.tail) :
    (rxByte LT c p).lines = if c = LT then (p.lines + 1) % 256 else p.lines := by
  unfold rxByte scheduleTopHalve
  simp only [hr, ne_eq, not_false_eq_true, if_true]
  split_ifs <;> rfl

theorem read_lines (LT : Nat) (p : Port) (hne : p.head ≠ p.tail) :
    (read LT p).1.lines
      = if p.buffer.getD p.tail 0 = LT then (p.lines + 255) % 256 else p.lines := by
  unfold read
  simp only [hne, if_false]
  split_ifs <;> rfl

theorem readLine_empty_eq (LT : Nat) (p : Port) (buff : Nat → Nat) (len : Nat)
    (h : p.lines = 0) : readLine LT p buff len = (p, Function.update buff 0 0, -1) := by
  unfold readLine; rw [if_pos h]

/-- With the first terminator at offset `k` and `len >= k+2`, the copy stops on
the terminator after `k+1` bytes. -/
theorem readLine_found (LT : Nat) (p : Port) (buff : Nat → Nat) (len k : Nat)
    (hv : p.Valid) (hl : 0 < p.lines) (hl8 : p.lines < 256) (hk : k < available p)
    (hpre : ∀ j, j < k → byteAt p j ≠ LT) (ht : byteAt p k = LT)
    (hlen : k + 2 ≤ len) (hlen16 : len ≤ 65535) :
    (readLine LT p buff len).2.2 = ((k + 1 : Nat) : Int) ∧
    (∀ j, j ≤ k → (readLine LT p buff len).2.1 j = byteAt p j) ∧
    (readLine LT p buff len).1.tail = (p.tail + (k + 1)) % p.size ∧
    (readLine LT p buff len).1.lines = p.lines - 1 := by
  have hks : k < p.size := lt_trans hk (available_lt_size p hv)
  have hs := hv.2.1
  have hlen1 : (len + 65535) % 65536 = len - 1 := by omega
  obtain ⟨r1, r2, r3, r4⟩ := readLineLoop_found LT (len - 1) k p 0 buff hv hpre ht (by omega)
  have hne : p.lines ≠ 0 := by omega
  have hR : readLine LT p buff len =
      ({ (readLineLoop LT (len - 1) p 0 buff).1 with
          lines := ((readLineLoop LT (len - 1) p 0 buff).1.lines + 255) % 256 },
        Function.update (readLineLoop LT (len - 1) p 0 buff).2.2
          ((readLineLoop LT (len - 1) p 0 buff).2.1 + 1) 0,
        intOfUShort ((readLineLoop LT (len - 1) p 0 buff).2.1 + 1)) := by
    unfold readLine
    simp only [hne, if_false, hlen1]
    rw [if_pos (by rw [r2]; omega)]
  rw [hR]
  dsimp only
  rw [r1, r2, Nat.zero_add]
  refine ⟨?_, ?_, rfl, ?_⟩
  · unfold intOfUShort
    rw [if_pos (by omega)]
  · intro j hj
    rw [Function.update_noteq (by omega)]
    have := r3 j hj
    rwa [Nat.zero_add] at this
  · show (p.lines + 255) % 256 = p.lines - 1
    omega

/-- With `len >= 2` not beyond the offset `k` of the first terminator plus one,
the copy stops on the length limit after `len - 1` bytes. -/
theorem readLine_limit (LT : Nat) (p : Port) (buff : Nat → Nat) (len k : Nat)
    (hv : p.Valid) (hl : 0 < p.lines) (hk : k < available p)
    (hpre : ∀ j, j < k → byteAt p j ≠ LT) (h2 : 2 ≤ len) (hlen : len ≤ k + 1) :
    (readLine LT p buff len).2.2 = ((len - 1 : Nat) : Int) ∧
    (∀ j, j < len - 1 → (readLine LT p buff len).2.1 j = byteAt p j) ∧
    (readLine LT p buff len).1.tail = (p.tail + (len - 1)) % p.size ∧
    (readLine LT p buff len).1.lines = p.lines := by
  have hks : k < p.size := lt_trans hk (available_lt_size p hv)
  have hs := hv.2.1
  have hlen1 : (len + 65535) % 65536 = len - 1 := by omega
  obtain ⟨r1, r2, r3, r4⟩ := readLineLoop_limit LT (len - 1) (len - 2) p 0 buff hv
    (by intro j hj; exact hpre j (by omega)) (by omega)
  have hne : p.lines ≠ 0 := by omega
  have hR : readLine LT p buff len =
      ((readLineLoop LT (len - 1) p 0 buff).1,
        Function.update (readLineLoop LT (len - 1) p 0 buff).2.2
          (readLineLoop LT (len - 1) p 0 buff).2.1 0,
        intOfUShort (readLineLoop LT (len - 1) p 0 buff).2.1) := by
    unfold readLine
    simp only [hne, if_false, hlen1]
    rw [if_neg (by rw [r2]; omega)]
  rw [hR]
  dsimp only
  rw [r1, r2]
  have e : len - 2 + 1 = len - 1 := by omega
  refine ⟨?_, ?_, by rw [e], rfl⟩
  · unfold intOfUShort
    rw [if_pos (by omega)]
  · intro j hj
    rw [Function.update_noteq (by omega)]
    have := r3 j (by omega)
    rw [Nat.zero_add] at this
    exact this

theorem linesInv_rxByte (LT c : Nat) (p : Port) (h : LinesInv LT p) :
    LinesInv LT (rxByte LT c p) := by
  obtain ⟨hv, hl⟩ := h
  by_cases hr : (p.head + 1) % p.size % 256 = p.tail
  · have e : rxByte LT c p = { p with topHalves := p.topHalves + 1 } := by
      unfold rxByte
      simp only [hr, ne_eq, not_true_eq_false, if_false, scheduleTopHalve]
    rw [e]
    exact ⟨hv, hl⟩
  · refine ⟨rxByte_valid LT c p hv hr, ?_⟩
    have hc := count_le_available LT p
    have ha := available_lt_size p hv
    have hs := hv.2.1
    rw [(rxByte_unread LT c p hv hr).1, rxByte_lines LT c p hr, List.count_append, ← hl]
    by_cases hcl : c = LT
    · rw [if_pos hcl, hcl, List.count_singleton_self]
      omega
    · rw [if_neg hcl, List.count_singleton, if_neg (by simpa using hcl), Nat.add_zero]

theorem linesInv_read (LT : Nat) (p : Port) (h : LinesInv LT p) :
    LinesInv LT (read LT p).1 := by
  obtain ⟨hv, hl⟩ := h
  by_cases he : p.head = p.tail
  · rw [read_empty LT p he]; exact ⟨hv, hl⟩
  · refine ⟨read_valid LT p hv, ?_⟩
    have hc := count_le_available LT p
    have ha := available_lt_size p hv
    have hs := hv.2.1
    have hu := (read_unread LT p hv he).1
    have e0 := (read_fields LT p he).1
    rw [read_lines LT p he]
    rw [hu, e0] at hl hc
    by_cases hb : p.buffer.getD p.tail 0 = LT
    · rw [if_pos hb]
      rw [hb, List.count_cons_self] at hl hc
      omega
    · rw [if_neg hb]
      rw [List.count_cons_of_ne (Ne.symm hb)] at hl
      exact hl

theorem linesInv_flush (LT : Nat) (p : Port) (h : LinesInv LT p) : LinesInv LT (flush p) := by
  refine ⟨flush_valid p h.1, ?_⟩
  have ha : available (flush p) = 0 := empty_of_eq _ (flush_valid p h.1) rfl
  unfold unread
  rw [ha]
  rfl

theorem linesInv_readLine (LT : Nat) (p : Port) (buff : Nat → Nat) (len : Nat)
    (h : LinesInv LT p) (h2 : 2 ≤ len) (h16 : len ≤ 65535) :
    LinesInv LT (readLine LT p buff len).1 ∧
    ∃ m, m ≤ available p ∧
      (readLine LT p buff len).1.tail = (p.tail + m) % p.size ∧
      available (readLine LT p buff len).1 = available p - m ∧
      (∀ j, j < m → (readLine LT p buff len).2.1 j = byteAt p j) ∧
      ((readLine LT p buff len).2.2 = ((m : Nat) : Int) ∨
        ((readLine LT p buff len).2.2 = -1 ∧ m = 0)) := by
  obtain ⟨hv, hl⟩ := h
  have hval := readLine_valid LT p buff len hv
  obtain ⟨f1, f2, f3, f4, f5, f6⟩ := readLine_frame LT p buff len
  have hc := count_le_available LT p
  have ha := available_lt_size p hv
  have hs := hv.2.1
  by_cases h0 : p.lines = 0
  · rw [readLine_empty_eq LT p buff len h0]
    refine ⟨⟨hv, hl⟩, 0, Nat.zero_le _, ?_, rfl, ?_, Or.inr ⟨rfl, rfl⟩⟩
    · rw [Nat.add_zero, Nat.mod_eq_of_lt hv.2.2.2.2]
    · intro j hj; omega
  · obtain ⟨k, hk, hpre, ht⟩ := first_terminator LT p (by omega)
    by_cases hkl : k + 2 ≤ len
    · obtain ⟨r1, r2, r6, r7⟩ := readLine_found LT p buff len k hv
        (by omega) (by omega) hk hpre ht hkl h16
      obtain ⟨c1, c2⟩ := count_skip_line LT k p hv hk hpre ht
      have hu := unread_congr { p with tail := (p.tail + (k + 1)) % p.size }
        (readLine LT p buff len).1 f1 f2 f4 r6
      have hav := available_congr { p with tail := (p.tail + (k + 1)) % p.size }
        (readLine LT p buff len).1 f2 f4 r6
      refine ⟨⟨hval, ?_⟩, k + 1, by omega, r6, ?_, ?_, Or.inl r1⟩
      · rw [r7, hu]; omega
      · rw [hav]; omega
      · intro j hj; exact r2 j (by omega)
    · obtain ⟨r1, r2, r3, r4⟩ := readLine_limit LT p buff len k hv (by omega) hk hpre h2
        (by omega)
      obtain ⟨c1, c2⟩ := count_skip LT (len - 1) p hv (by omega)
        (by intro j hj; exact hpre j (by omega))
      have hu := unread_congr { p with tail := (p.tail + (len - 1)) % p.size }
        (readLine LT p buff len).1 f1 f2 f4 r3
      have hav := available_congr { p with tail := (p.tail + (len - 1)) % p.size }
        (readLine LT p buff len).1 f2 f4 r3
      refine ⟨⟨hval, ?_⟩, len - 1, by omega, r3, ?_, r2, Or.inl r1⟩
      · rw [r4, hu, ← c1]; exact hl
      · rw [hav]; omega

theorem linesInv_init (LT cap limit : Nat) (h1 : 1 ≤ cap) (h255 : cap ≤ 255) :
    LinesInv LT (initSerials cap limit) := by
  have hv := initSerials_valid cap limit (by omega) h255
  refine ⟨hv, ?_⟩
  have ha : available (initSerials cap limit) = 0 := empty_of_eq _ hv rfl
  unfold unread
  rw [ha]
  rfl

/-- The line counter is the number of terminators among the unread bytes in
every state reached by operations whose `readLine` calls use a length of 2 to
65535. -/
theorem linesInv_run (LT : Nat) (ops : List Op) :
    ∀ p : Port, LinesInv LT p →
      (∀ len, Op.rdLine len ∈ ops → 2 ≤ len ∧ len ≤ 65535) → LinesInv LT (run LT p ops) := by
  induction ops with
  | nil => intro p h _; exact h
  | cons op ops ih =>
    intro p h hops
    have hrest : ∀ len, Op.rdLine len ∈ ops → 2 ≤ len ∧ len ≤ 65535 :=
      fun len hm => hops len (List.mem_cons_of_mem op hm)
    have hstep : LinesInv LT (step LT p op) := by
      cases op with
      | rx c => exact linesInv_rxByte LT c p h
      | rd => exact linesInv_read LT p h
      | rdLine len =>
        obtain ⟨a, b⟩ := hops len (List.mem_cons_self _ _)
        exact (linesInv_readLine LT p _ len h a b).1
      | fl => exact linesInv_flush LT p h
    exact ih _ hstep hrest

/-- C20: in a state reached from `initSerials` (capacity 1 to 255) by
`rxByte`, `read`, `flush` and `readLine` calls whose lengths are from 2 to
65535, a `readLine` call with such a length advances `tail` by a number `m` of
positions that is at most `available`: the `m` bytes it copies are the first
`m` unread bytes, `available` decreases by `m`, and the call returns `m`, or
-1 with `m = 0` when no line is buffered. -/
theorem readLine_stays_in_unread (LT cap limit : Nat) (h1 : 1 ≤ cap) (h255 : cap ≤ 255)
    (ops : List Op) (hops : ∀ len, Op.rdLine len ∈ ops → 2 ≤ len ∧ len ≤ 65535)
    (buff : Nat → Nat) (len : Nat) (h2 : 2 ≤ len) (h16 : len ≤ 65535) :
    ∃ m, m ≤ available (run LT (initSerials cap limit) ops) ∧
      (readLine LT (run LT (initSerials cap limit) ops) buff len).1.tail
        = ((run LT (initSerials cap limit) ops).tail + m)
            % (run LT (initSerials cap limit) ops).size ∧
      available (readLine LT (run LT (initSerials cap limit) ops) buff len).1
        = available (run LT (initSerials cap limit) ops) - m ∧
      (∀ j, j < m → (readLine LT (run LT (initSerials cap limit) ops) buff len).2.1 j
        = byteAt (run LT (initSerials cap limit) ops) j) ∧
      ((readLine LT (run LT (initSerials cap limit) ops) buff len).2.2 = ((m : Nat) : Int) ∨
        ((readLine LT (run LT (initSerials cap limit) ops) buff len).2.2 = -1 ∧ m = 0)) :=
  (linesInv_readLine LT _ buff len
    (linesInv_run LT ops _ (linesInv_init LT cap limit h1 h255) hops) h2 h16).2

theorem readLine_stays_in_unread_witness :
    ∃ m, m ≤ available (run 10 (initSerials 8 4) [Op.rx 65, Op.rx 10, Op.rdLine 2, Op.rx 66]) ∧
      (readLine 10 (run 10 (initSerials 8 4) [Op.rx 65, Op.rx 10, Op.rdLine 2, Op.rx 66])
          (fun _ => 0) 16).1.tail
        = ((run 10 (initSerials 8 4) [Op.rx 65, Op.rx 10, Op.rdLine 2, Op.rx 66]).tail + m)
            % (run 10 (initSerials 8 4) [Op.rx 65, Op.rx 10, Op.rdLine 2, Op.rx 66]).size ∧
      available (readLine 10 (run 10 (initSerials 8 4)
          [Op.rx 65, Op.rx 10, Op.rdLine 2, Op.rx 66]) (fun _ => 0) 16).1
        = available (run 10 (initSerials 8 4) [Op.rx 65, Op.rx 10, Op.rdLine 2, Op.rx 66])
            - m ∧
      (∀ j, j < m → (readLine 10 (run 10 (initSerials 8 4)
          [Op.rx 65, Op.rx 10, Op.rdLine 2, Op.rx 66]) (fun _ => 0) 16).2.1 j
        = byteAt (run 10 (initSerials 8 4) [Op.rx 65, Op.rx 10, Op.rdLine 2, Op.rx 66]) j) ∧
      ((readLine 10 (run 10 (initSerials 8 4) [Op.rx 65, Op.rx 10, Op.rdLine 2, Op.rx 66])
          (fun _ => 0) 16).2.2 = ((m : Nat) : Int) ∨
        ((readLine 10 (run 10 (initSerials 8 4) [Op.rx 65, Op.rx 10, Op.rdLine 2, Op.rx 66])
          (fun _ => 0) 16).2.2 = -1 ∧ m = 0)) :=
  readLine_stays_in_unread 10 8 4 (by decide) (by decide)
    [Op.rx 65, Op.rx 10, Op.rdLine 2, Op.rx 66]
    (by intro len h; simp at h; omega) (fun _ => 0) 16 (by decide) (by decide)

/-- C17 (failing input): capacity 8, terminator `'\n'`.  After `initSerials`
and `rxByte '\n'` the counter `lines` is 1, the number of terminators among the
unread bytes.  `readLine` with `len = 1` then consumes the terminator and
keeps `lines`: the buffer is empty (`available` is 0, no unread terminator) and
`lines` is still 1. -/
theorem readLine_len_one_keeps_lines :
    (run 10 (initSerials 8 4) [Op.rx 10]).lines = 1 ∧
    (unread (run 10 (initSerials 8 4) [Op.rx 10])).count 10 = 1 ∧
    (run 10 (initSerials 8 4) [Op.rx 10, Op.rdLine 1]).lines = 1 ∧
    (unread (run 10 (initSerials 8 4) [Op.rx 10, Op.rdLine 1])).count 10 = 0 ∧
    available (run 10 (initSerials 8 4) [Op.rx 10, Op.rdLine 1]) = 0 := by
  refine ⟨by decide, by decide, ?_, ?_, ?_⟩
  · simp [run, step, readLine, readLineLoop, rxByte, initSerials, scheduleTopHalve]
  · simp [run, step, readLine, readLineLoop, rxByte, initSerials, scheduleTopHalve, unread,
      available]
  · simp [run, step, readLine, readLineLoop, rxByte, initSerials, scheduleTopHalve, available]

/-! ## The destination of `readLine` -/

theorem readLineLoop_bounds (LT len : Nat) :
    ∀ (d : Nat) (p : Port) (i : Nat) (buff : Nat → Nat), len - i = d → i < len →
      i ≤ (readLineLoop LT len p i buff).2.1 ∧ (readLineLoop LT len p i buff).2.1 ≤ len ∧
      (∀ x, (readLineLoop LT len p i buff).2.1 < x →
        (readLineLoop LT len p i buff).2.2 x = buff x) := by
  intro d
  induction d using Nat.strong_induction_on with
  | _ d ih =>
    intro p i buff hd hi
    rw [readLineLoop]
    split_ifs with h1 h2
    · obtain ⟨a, b, c⟩ := ih (len - (i + 1)) (by omega)
        { p with tail := (p.tail + 1) % p.size % 256 } (i + 1)
        (Function.update buff i (p.buffer.getD p.tail 0)) rfl h2
      refine ⟨by omega, b, ?_⟩
      intro x hx
      rw [c x hx]
      exact Function.update_noteq (by omega) _ _
    · refine ⟨by show i ≤ i + 1; omega, by show i + 1 ≤ len; omega, ?_⟩
      intro x hx
      have hx2 : i + 1 < x := hx
      exact Function.update_noteq (by omega) _ _
    · refine ⟨le_refl i, by show i ≤ len; omega, ?_⟩
      intro x hx
      have hx2 : i < x := hx
      exact Function.update_noteq (by omega) _ _

/-- With a length `len` from 2 to 65535 and `lines > 0`, in any port state,
`readLine` copies a number `n <= len - 1` of bytes, returns `n`, writes the 0
at index `n` and leaves the destination beyond index `n` as it was. -/
theorem readLine_within_destination (LT : Nat) (p : Port) (buff : Nat → Nat) (len : Nat)
    (hl : 0 < p.lines) (h2 : 2 ≤ len) (h16 : len ≤ 65535) :
    ∃ n, n ≤ len - 1 ∧ (readLine LT p buff len).2.2 = intOfUShort n ∧
      (readLine LT p buff len).2.1 n = 0 ∧
      (∀ x, n < x → (readLine LT p buff len).2.1 x = buff x) := by
  have hlen1 : (len + 65535) % 65536 = len - 1 := by omega
  have hne : p.lines ≠ 0 := by omega
  obtain ⟨_, b, c⟩ := readLineLoop_bounds LT (len - 1) _ p 0 buff rfl (by omega)
  by_cases hlt : (readLineLoop LT (len - 1) p 0 buff).2.1 < len - 1
  · have hR : readLine LT p buff len =
        ({ (readLineLoop LT (len - 1) p 0 buff).1 with
            lines := ((readLineLoop LT (len - 1) p 0 buff).1.lines + 255) % 256 },
          Function.update (readLineLoop LT (len - 1) p 0 buff).2.2
            ((readLineLoop LT (len - 1) p 0 buff).2.1 + 1) 0,
          intOfUShort ((readLineLoop LT (len - 1) p 0 buff).2.1 + 1)) := by
      unfold readLine
      simp only [hne, if_false, hlen1]
      rw [if_pos hlt]
    rw [hR]
    refine ⟨(readLineLoop LT (len - 1) p 0 buff).2.1 + 1, by omega, rfl, ?_, ?_⟩
    · exact Function.update_same _ _ _
    · intro x hx
      show Function.update (readLineLoop LT (len - 1) p 0 buff).2.2
        ((readLineLoop LT (len - 1) p 0 buff).2.1 + 1) 0 x = buff x
      rw [Function.update_noteq (by omega)]
      exact c x (by omega)
  · have hR : readLine LT p buff len =
        ((readLineLoop LT (len - 1) p 0 buff).1,
          Function.update (readLineLoop LT (len - 1) p 0 buff).2.2
            (readLineLoop LT (len - 1) p 0 buff).2.1 0,
          intOfUShort (readLineLoop LT (len - 1) p 0 buff).2.1) := by
      unfold readLine
      simp only [hne, if_false, hlen1]
      rw [if_neg hlt]
    rw [hR]
    refine ⟨(readLineLoop LT (len - 1) p 0 buff).2.1, b, rfl, ?_, ?_⟩
    · exact Function.update_same _ _ _
    · intro x hx
      show Function.update (readLineLoop LT (len - 1) p 0 buff).2.2
        (readLineLoop LT (len - 1) p 0 buff).2.1 0 x = buff x
      rw [Function.update_noteq (by omega)]
      exact c x hx

/-- C18 (failing input): after `"CD\n"` was ingested, `readLine` with `len = 1`
on a destination filled with 255 copies one data byte, more than `len - 1 = 0`,
returns 1 and writes the 0 at destination index 1, outside the indices
`0..len-1`. -/
theorem readLine_len_one_writes_index_one :
    (ingestAll 10 (initSerials 8 4) [67, 68, 10]).lines = 1 ∧
    (readLine 10 (ingestAll 10 (initSerials 8 4) [67, 68, 10]) (fun _ => 255) 1).2.1 0 = 67 ∧
    (readLine 10 (ingestAll 10 (initSerials 8 4) [67, 68, 10]) (fun _ => 255) 1).2.1 1 = 0 ∧
    (readLine 10 (ingestAll 10 (initSerials 8 4) [67, 68, 10]) (fun _ => 255) 1).2.1 2 = 255 ∧
    (readLine 10 (ingestAll 10 (initSerials 8 4) [67, 68, 10]) (fun _ => 255) 1).2.2 = 1 := by
  refine ⟨by decide, ?_, ?_, ?_, ?_⟩ <;>
    simp [readLine, readLineLoop, ingestAll, rxByte, initSerials, scheduleTopHalve, intOfUShort]

end Serials

namespace Interrupts

/-! ## Bits of the registers -/

theorem testBit_of_lt_256 (a b : Nat) (ha : a < 256) (hb : 8 ≤ b) : a.testBit b = false := by
  apply Nat.testBit_lt_two_pow
  calc a < 2 ^ 8 := ha
    _ ≤ 2 ^ b := Nat.pow_le_pow_right (by decide) hb

theorem testBit_of_lt_4 (m j : Nat) (hm : m < 4) (hj : 2 ≤ j) : m.testBit j = false := by
  apply Nat.testBit_lt_two_pow
  calc m < 2 ^ 2 := hm
    _ ≤ 2 ^ j := Nat.pow_le_pow_right (by decide) hj

/-- Bits of a register after `reg = (reg & ~((1 << k) | (1 << (k+1)))) | (m << k)`. -/
theorem testBit_mode_field (a m k b : Nat) (ha : a < 256) (hm : m < 4) (hk : k + 1 < 8) :
    (((a &&& compl16 ((1 <<< k) ||| (1 <<< (k + 1)))) ||| (m <<< k)) % 256).testBit b
      = if b = k then m.testBit 0 else if b = k + 1 then m.testBit 1 else a.testBit b := by
  have e256 : (256 : Nat) = 2 ^ 8 := by decide
  have e65535 : (65535 : Nat) = 2 ^ 16 - 1 := by decide
  unfold compl16
  rw [e256, e65535]
  simp only [Nat.testBit_mod_two_pow, Nat.testBit_lor, Nat.testBit_land, Nat.testBit_xor,
    Nat.testBit_two_pow_sub_one, Nat.one_shiftLeft, Nat.testBit_two_pow,
    Nat.testBit_shiftLeft]
  by_cases h1 : b = k
  · subst h1
    have h8 : b < 8 := by omega
    have h16 : b < 16 := by omega
    simp [h8, h16]
  · by_cases h2 : b = k + 1
    · subst h2
      have h8 : k + 1 < 8 := by omega
      have h16 : k + 1 < 16 := by omega
      simp [h8, h16]
    · rw [if_neg h1, if_neg h2]
      by_cases h8 : b < 8
      · have h16 : b < 16 := by omega
        by_cases hlt : b < k
        · have : ¬ (b ≥ k) := by omega
          simp [h8, h16, this, Ne.symm h1, Ne.symm h2]
        · have hj := testBit_of_lt_4 m (b - k) hm (by omega)
          simp [h8, h16, hj, Ne.symm h1, Ne.symm h2]
      · have := testBit_of_lt_256 a b ha (by omega)
        simp [h8, this]

/-- Bits of a register after `reg &= ~(1 << k)`. -/
theorem testBit_clear_bit (a k b : Nat) (hk : k < 8) :
    ((a &&& compl16 (1 <<< k)) % 256).testBit b
      = if b = k then false else (decide (b < 8) && a.testBit b) := by
  have e256 : (256 : Nat) = 2 ^ 8 := by decide
  have e65535 : (65535 : Nat) = 2 ^ 16 - 1 := by decide
  unfold compl16
  rw [e256, e65535]
  simp only [Nat.testBit_mod_two_pow, Nat.testBit_land, Nat.testBit_xor,
    Nat.testBit_two_pow_sub_one, Nat.one_shiftLeft, Nat.testBit_two_pow]
  by_cases h1 : b = k
  · subst h1
    have h16 : b < 16 := by omega
    simp [h16]
  · rw [if_neg h1]
    by_cases h8 : b < 8
    · have h16 : b < 16 := by omega
      simp [h8, h16, Ne.symm h1]
    · simp [h8]

/-- Bits of a register after `reg |= (1 << k)`. -/
theorem testBit_set_bit (a k b : Nat) (ha : a < 256) (hk : k < 8) :
    ((a ||| (1 <<< k)) % 256).testBit b = if b = k then true else a.testBit b := by
  have e256 : (256 : Nat) = 2 ^ 8 := by decide
  rw [e256]
  simp only [Nat.testBit_mod_two_pow, Nat.testBit_lor, Nat.one_shiftLeft, Nat.testBit_two_pow]
  by_cases h1 : b = k
  · subst h1; simp [hk]
  · rw [if_neg h1]
    by_cases h8 : b < 8
    · simp [h8, Ne.symm h1]
    · have := testBit_of_lt_256 a b ha (by omega)
      simp [h8, this]

theorem set_getD_self (l : List Nat) : ∀ n d : Nat, l.set n (l.getD n d) = l := by
  induction l with
  | nil => intro n d; rfl
  | cons a l ih =>
    intro n d
    cases n with
    | zero => rfl
    | succ n =>
      show a :: l.set n (l.getD n d) = a :: l
      rw [ih n d]

theorem getD_set_self (l : List Nat) (n v : Nat) (h : n < l.length) :
    (l.set n v).getD n 0 = v := by
  rw [List.getD_eq_getElem?_getD, List.getElem?_set_self h]
  rfl

theorem getD_set_ne (l : List Nat) (n m v : Nat) (h : m ≠ n) :
    (l.set n v).getD m 0 = l.getD m 0 := by
  rw [List.getD_eq_getElem?_getD, List.getD_eq_getElem?_getD, List.getElem?_set_ne (Ne.symm h)]

/-! ## `attachInterrupt` -/

/-- C12: with `interruptNum >= EXTERNAL_NUM_INTERRUPTS`, whatever the callback
and the mode, `attachInterrupt` leaves the table `intFunc` and the registers
`EICRA`, `EICRB` and `EIMSK` unchanged. -/
theorem attachInterrupt_out_of_range (N n f mode : Nat) (s : Registry) (h : N ≤ n) :
    attachInterrupt N n f mode s = s ∧
    (attachInterrupt N n f mode s).intFunc = s.intFunc ∧
    (attachInterrupt N n f mode s).EICRA = s.EICRA ∧
    (attachInterrupt N n f mode s).EICRB = s.EICRB ∧
    (attachInterrupt N n f mode s).EIMSK = s.EIMSK := by
  have e : attachInterrupt N n f mode s = s := by
    unfold attachInterrupt
    rw [if_neg (by omega)]
  rw [e]
  exact ⟨rfl, rfl, rfl, rfl, rfl⟩

theorem attachInterrupt_out_of_range_witness :
    attachInterrupt 8 8 4660 3
        { intFunc := [0, 0, 0, 0, 0, 0, 0, 0], EICRA := 0, EICRB := 0, EIMSK := 0 }
      = { intFunc := [0, 0, 0, 0, 0, 0, 0, 0], EICRA := 0, EICRB := 0, EIMSK := 0 } :=
  (attachInterrupt_out_of_range 8 8 4660 3
    { intFunc := [0, 0, 0, 0, 0, 0, 0, 0], EICRA := 0, EICRB := 0, EIMSK := 0 }
    (by decide)).1

theorem attachInterrupt_eq (n f mode : Nat) (s : Registry) (hn : n < 8) :
    attachInterrupt 8 n f mode s =
      { intFunc := s.intFunc.set n f,
        EICRA := if n < 4 then
            ((s.EICRA &&& compl16 ((1 <<< (2 * n)) ||| (1 <<< (2 * n + 1))))
              ||| (mode <<< (2 * n))) % 256
          else s.EICRA,
        EICRB := if n < 4 then s.EICRB else
            ((s.EICRB &&& compl16 ((1 <<< (2 * (n - 4))) ||| (1 <<< (2 * (n - 4) + 1))))
              ||| (mode <<< (2 * (n - 4)))) % 256,
        EIMSK := (s.EIMSK ||| (1 <<< n)) % 256 } := by
  interval_cases n <;> simp [attachInterrupt, ISC, INT]

/-- C13: with 8 external interrupts, for a line `n < 8` and a mode from 0 to
3, `attachInterrupt` stores the callback in slot `n` and in no other slot,
writes the mode into bits `2*(n mod 4)` and `2*(n mod 4)+1` of the control
register of the line (`EICRA` for lines 0 to 3, `EICRB` for lines 4 to 7) and
keeps every other bit of `EICRA` and `EICRB`, and sets bit `n` of `EIMSK` and
keeps every other bit of `EIMSK`. -/
theorem attachInterrupt_sets_line (n f mode : Nat) (s : Registry) (hn : n < 8)
    (hmode : mode < 4) (hlen : s.intFunc.length = 8) (hA : s.EICRA < 256)
    (hB : s.EICRB < 256) (hM : s.EIMSK < 256) :
    (attachInterrupt 8 n f mode s).intFunc.getD n 0 = f ∧
    (∀ m, m ≠ n → (attachInterrupt 8 n f mode s).intFunc.getD m 0 = s.intFunc.getD m 0) ∧
    (attachInterrupt 8 n f mode s).intFunc.length = 8 ∧
    (n < 4 → (attachInterrupt 8 n f mode s).EICRB = s.EICRB ∧
      ∀ b, (attachInterrupt 8 n f mode s).EICRA.testBit b
        = if b = 2 * n then mode.testBit 0 else if b = 2 * n + 1 then mode.testBit 1
          else s.EICRA.testBit b) ∧
    (4 ≤ n → (attachInterrupt 8 n f mode s).EICRA = s.EICRA ∧
      ∀ b, (attachInterrupt 8 n f mode s).EICRB.testBit b
        = if b = 2 * (n - 4) then mode.testBit 0
          else if b = 2 * (n - 4) + 1 then mode.testBit 1 else s.EICRB.testBit b) ∧
    (∀ b, (attachInterrupt 8 n f mode s).EIMSK.testBit b
      = if b = n then true else s.EIMSK.testBit b) := by
  rw [attachInterrupt_eq n f mode s hn]
  refine ⟨?_, ?_, ?_, ?_, ?_, ?_⟩
  · exact getD_set_self s.intFunc n f (by omega)
  · intro m hm
    exact getD_set_ne s.intFunc n m f hm
  · show (s.intFunc.set n f).length = 8
    rw [List.length_set]; exact hlen
  · intro h4
    dsimp only
    rw [if_pos h4, if_pos h4]
    refine ⟨rfl, ?_⟩
    intro b
    exact testBit_mode_field s.EICRA mode (2 * n) b hA hmode (by omega)
  · intro h4
    dsimp only
    rw [if_neg (by omega), if_neg (by omega)]
    refine ⟨rfl, ?_⟩
    intro b
    exact testBit_mode_field s.EICRB mode (2 * (n - 4)) b hB hmode (by omega)
  · intro b
    exact testBit_set_bit s.EIMSK n b hM hn

theorem attachInterrupt_sets_line_witness :
    attachInterrupt 8 5 4660 2
        { intFunc := [0, 0, 0, 0, 0, 0, 0, 0], EICRA := 255, EICRB := 255, EIMSK := 1 }
      = { intFunc := [0, 0, 0, 0, 0, 4660, 0, 0], EICRA := 255, EICRB := 251, EIMSK := 33 } ∧
    (attachInterrupt 8 5 4660 2
        { intFunc := [0, 0, 0, 0, 0, 0, 0, 0], EICRA := 255, EICRB := 255,
          EIMSK := 1 }).intFunc.getD 5 0 = 4660 :=
  ⟨by decide,
    (attachInterrupt_sets_line 5 4660 2
      { intFunc := [0, 0, 0, 0, 0, 0, 0, 0], EICRA := 255, EICRB := 255, EIMSK := 1 }
      (by decide) (by decide) (by decide) (by decide) (by decide) (by decide)).1⟩

/-! ## `detachInterrupt` -/

theorem detachInterrupt_eq (N n : Nat) (s : Registry) :
    detachInterrupt N n s =
      if n < N then
        { s with
          EIMSK := if n < 8 then (s.EIMSK &&& compl16 (1 <<< n)) % 256 else s.EIMSK,
          intFunc := s.intFunc.set n 0 }
      else s := by
  by_cases hN : n < N
  · rw [if_pos hN]
    by_cases h8 : n < 8
    · interval_cases n <;> simp [detachInterrupt, INT, hN]
    · obtain ⟨m, rfl⟩ : ∃ m, n = m + 8 := ⟨n - 8, by omega⟩
      simp [detachInterrupt, hN]
  · rw [if_neg hN]
    unfold detachInterrupt
    rw [if_neg hN]

theorem clear_bit_twice (a k : Nat) (hk : k < 8) :
    (((a &&& compl16 (1 <<< k)) % 256) &&& compl16 (1 <<< k)) % 256
      = (a &&& compl16 (1 <<< k)) % 256 := by
  apply Nat.eq_of_testBit_eq
  intro b
  rw [testBit_clear_bit _ k b hk, testBit_clear_bit a k b hk]
  split_ifs
  · rfl
  · simp

theorem clear_bit_of_clear (a k : Nat) (ha : a < 256) (hk : k < 8) (hb : a.testBit k = false) :
    (a &&& compl16 (1 <<< k)) % 256 = a := by
  apply Nat.eq_of_testBit_eq
  intro b
  rw [testBit_clear_bit a k b hk]
  split_ifs with h1
  · rw [h1, hb]
  · by_cases h8 : b < 8
    · simp [h8]
    · rw [testBit_of_lt_256 a b ha (by omega)]
      simp

/-- C14: `detachInterrupt` applied twice gives the state of one application;
on a line whose slot is empty and whose enable bit is clear it changes
nothing; and for `n < EXTERNAL_NUM_INTERRUPTS` the state it returns has bit `n`
of `EIMSK` clear and slot `n` empty, every other slot, every other bit of
`EIMSK` and the registers `EICRA` and `EICRB` being as before. -/
theorem detachInterrupt_idempotent (N n : Nat) (s : Registry) (hM : s.EIMSK < 256) :
    detachInterrupt N n (detachInterrupt N n s) = detachInterrupt N n s ∧
    (s.intFunc.getD n 0 = 0 → s.EIMSK.testBit n = false → detachInterrupt N n s = s) ∧
    (n < N →
      (detachInterrupt N n s).EIMSK.testBit n = false ∧
      (detachInterrupt N n s).intFunc.getD n 0 = 0 ∧
      (∀ m, m ≠ n → (detachInterrupt N n s).intFunc.getD m 0 = s.intFunc.getD m 0) ∧
      (∀ b, b ≠ n → (detachInterrupt N n s).EIMSK.testBit b = s.EIMSK.testBit b) ∧
      (detachInterrupt N n s).EICRA = s.EICRA ∧ (detachInterrupt N n s).EICRB = s.EICRB) := by
  refine ⟨?_, ?_, ?_⟩
  · rw [detachInterrupt_eq N n (detachInterrupt N n s), detachInterrupt_eq N n s]
    by_cases hN : n < N
    · simp only [hN, if_true, List.set_set]
      by_cases h8 : n < 8
      · simp only [h8, if_true, clear_bit_twice s.EIMSK n h8]
      · simp only [h8, if_false]
    · simp only [hN, if_false]
  · intro hslot hbit
    rw [detachInterrupt_eq N n s]
    by_cases hN : n < N
    · rw [if_pos hN]
      have hL : s.intFunc.set n 0 = s.intFunc := by
        have := set_getD_self s.intFunc n 0
        rwa [hslot] at this
      rw [hL]
      by_cases h8 : n < 8
      · rw [if_pos h8, clear_bit_of_clear s.EIMSK n hM h8 hbit]
      · rw [if_neg h8]
    · rw [if_neg hN]
  · intro hN
    rw [detachInterrupt_eq N n s, if_pos hN]
    dsimp only
    refine ⟨?_, ?_, ?_, ?_, rfl, rfl⟩
    · by_cases h8 : n < 8
      · rw [if_pos h8, testBit_clear_bit s.EIMSK n n h8, if_pos rfl]
      · rw [if_neg h8]
        exact testBit_of_lt_256 s.EIMSK n hM (by omega)
    · by_cases hl : n < s.intFunc.length
      · exact getD_set_self s.intFunc n 0 hl
      · rw [List.getD_eq_getElem?_getD, List.getElem?_eq_none (by rw [List.length_set]; omega)]
        rfl
    · intro m hm
      exact getD_set_ne s.intFunc n m 0 hm
    · intro b hb
      by_cases h8 : n < 8
      · rw [if_pos h8, testBit_clear_bit s.EIMSK n b h8, if_neg hb]
        by_cases hb8 : b < 8
        · simp [hb8]
        · rw [testBit_of_lt_256 s.EIMSK b hM (by omega)]
          simp
      · rw [if_neg h8]

theorem detachInterrupt_idempotent_witness :
    detachInterrupt 8 5
        { intFunc := [0, 0, 0, 0, 0, 4660, 0, 0], EICRA := 255, EICRB := 251, EIMSK := 33 }
      = { intFunc := [0, 0, 0, 0, 0, 0, 0, 0], EICRA := 255, EICRB := 251, EIMSK := 1 } ∧
    detachInterrupt 8 5 (detachInterrupt 8 5
        { intFunc := [0, 0, 0, 0, 0, 4660, 0, 0], EICRA := 255, EICRB := 251, EIMSK := 33 })
      = detachInterrupt 8 5
        { intFunc := [0, 0, 0, 0, 0, 4660, 0, 0], EICRA := 255, EICRB := 251, EIMSK := 33 } ∧
    detachInterrupt 8 2
        { intFunc := [0, 0, 0, 0, 0, 4660, 0, 0], EICRA := 255, EICRB := 251, EIMSK := 33 }
      = { intFunc := [0, 0, 0, 0, 0, 4660, 0, 0], EICRA := 255, EICRB := 251, EIMSK := 33 } :=
  ⟨by decide,
    (detachInterrupt_idempotent 8 5
      { intFunc := [0, 0, 0, 0, 0, 4660, 0, 0], EICRA := 255, EICRB := 251, EIMSK := 33 }
      (by decide)).1,
    (detachInterrupt_idempotent 8 2
      { intFunc := [0, 0, 0, 0, 0, 4660, 0, 0], EICRA := 255, EICRB := 251, EIMSK := 33 }
      (by decide)).2.1 (by decide) (by decide)⟩

/-! ## Dispatch -/

/-- C15: the handler of a line `n` invokes the callback stored in slot `n`
once when the slot is not empty and invokes nothing when it is empty; so with
`n < EXTERNAL_NUM_INTERRUPTS <= 8` and a table of `EXTERNAL_NUM_INTERRUPTS`
slots, a firing right after `attachInterrupt(n, f, mode)` with a callback `f`
(a non-null pointer) invokes `f`, and a firing right after
`detachInterrupt(n)` invokes nothing. -/
theorem dispatch_invokes_slot (N n f mode : Nat) (s : Registry) (hn : n < N) (h8 : N ≤ 8)
    (hlen : s.intFunc.length = N) (hf : f ≠ 0) :
    (s.intFunc.getD n 0 ≠ 0 → SIG_INTERRUPT n s = [s.intFunc.getD n 0]) ∧
    (s.intFunc.getD n 0 = 0 → SIG_INTERRUPT n s = []) ∧
    SIG_INTERRUPT n (attachInterrupt N n f mode s) = [f] ∧
    SIG_INTERRUPT n (detachInterrupt N n s) = [] := by
  have hslotA : (attachInterrupt N n f mode s).intFunc = s.intFunc.set n f := by
    have h8n : n < 8 := by omega
    interval_cases n <;> simp [attachInterrupt, hn]
  have hslotD : (detachInterrupt N n s).intFunc = s.intFunc.set n 0 := by
    rw [detachInterrupt_eq N n s, if_pos hn]
  refine ⟨?_, ?_, ?_, ?_⟩
  · intro h
    unfold SIG_INTERRUPT EXTERNAL_INT
    rw [if_pos h]
  · intro h
    unfold SIG_INTERRUPT EXTERNAL_INT
    rw [if_neg (by rw [h]; exact fun hh => hh rfl)]
  · unfold SIG_INTERRUPT EXTERNAL_INT
    rw [hslotA, getD_set_self s.intFunc n f (by omega), if_pos hf]
  · unfold SIG_INTERRUPT EXTERNAL_INT
    rw [hslotD, getD_set_self s.intFunc n 0 (by omega)]
    rfl

theorem dispatch_invokes_slot_witness :
    SIG_INTERRUPT 5 (attachInterrupt 8 5 4660 2
        { intFunc := [0, 0, 0, 0, 0, 0, 0, 0], EICRA := 0, EICRB := 0, EIMSK := 0 })
      = [4660] ∧
    SIG_INTERRUPT 5 (detachInterrupt 8 5
        { intFunc := [0, 0, 0, 0, 0, 0, 0, 0], EICRA := 0, EICRB := 0, EIMSK := 0 }) = [] ∧
    SIG_INTERRUPT 5 { intFunc := [0, 0, 0, 0, 0, 0, 0, 0], EICRA := 0, EICRB := 0, EIMSK := 0 }
      = [] :=
  ⟨(dispatch_invokes_slot 8 5 4660 2
      { intFunc := [0, 0, 0, 0, 0, 0, 0, 0], EICRA := 0, EICRB := 0, EIMSK := 0 }
      (by decide) (by decide) (by decide) (by decide)).2.2.1,
    (dispatch_invokes_slot 8 5 4660 2
      { intFunc := [0, 0, 0, 0, 0, 0, 0, 0], EICRA := 0, EICRB := 0, EIMSK := 0 }
      (by decide) (by decide) (by decide) (by decide)).2.2.2,
    by decide⟩

end Interrupts
